import Mathlib

/-!
Verification of the Substack2Markdown pipeline (discovery, filtering,
conversion and serialization logic) against its natural-language
specification.  The Python source in `substack2markdown/` is shallowly
embedded: pure functions become Lean functions, `datetime` values become a
six-field record rendered/parsed through their ISO textual form, strings
become `String`/`List Char`, and the stateful fetch/download boundaries
become explicit oracles with instrumentation counters.
-/

set_option maxHeartbeats 1000000
set_option maxRecDepth 4000

/-! ## Python `datetime` model

Python `datetime.datetime` values are modelled by their six calendar
fields (microseconds are not used by the repository: dates are only
compared, rendered with `strftime('%Y-%m-%d')`, or serialized with
`isoformat()` and parsed back with `fromisoformat`).  Chronological
comparison of two datetimes is lexicographic on the fields, which for
in-range values coincides with comparison of the `dtKey` linearization
below. -/

structure PyDateTime where
  year : Nat
  month : Nat
  day : Nat
  hour : Nat
  minute : Nat
  second : Nat
deriving DecidableEq, Repr

/-- Values actually constructible by Python's `datetime` constructor:
every field lies in its calendar range (day upper bound relaxed to 31). -/
def PyDateTime.Valid (d : PyDateTime) : Prop :=
  1 ≤ d.year ∧ d.year ≤ 9999 ∧ 1 ≤ d.month ∧ d.month ≤ 12 ∧
    1 ≤ d.day ∧ d.day ≤ 31 ∧ d.hour ≤ 23 ∧ d.minute ≤ 59 ∧ d.second ≤ 59

instance (d : PyDateTime) : Decidable d.Valid := by
  unfold PyDateTime.Valid; infer_instance

/-- Linearization of the calendar fields; for valid datetimes it is
strictly monotone with respect to chronological (lexicographic) order, so
Python's `<=` on datetimes is modelled by `dtKey _ ≤ dtKey _`. -/
def dtKey (d : PyDateTime) : Nat :=
  ((((d.year * 13 + d.month) * 32 + d.day) * 24 + d.hour) * 60 + d.minute) * 60
    + d.second

/-- Python's `datetime.min` (year 1, month 1, day 1, midnight). -/
def pyDatetimeMin : PyDateTime := ⟨1, 1, 1, 0, 0, 0⟩

/-- Decimal digit character for `n % 10`, as produced by Python's number
formatting. -/
def digitChar (n : Nat) : Char := Char.ofNat (48 + n % 10)

/-- Numeric value of a decimal digit character. -/
def charVal (c : Char) : Nat := c.toNat - 48

/-- Two-digit zero-padded rendering (`%02d`) of `n < 100`. -/
def pad2 (n : Nat) : List Char := [digitChar (n / 10), digitChar n]

/-- Four-digit zero-padded rendering (`%04d`/`%Y`) of `n < 10000`. -/
def pad4 (n : Nat) : List Char :=
  [digitChar (n / 1000), digitChar (n / 100), digitChar (n / 10), digitChar n]

/-- Model of Python `datetime.isoformat()` for datetimes with zero
microsecond: the `YYYY-MM-DDTHH:MM:SS` rendering. -/
def isoformat (d : PyDateTime) : List Char :=
  pad4 d.year ++ '-' :: pad2 d.month ++ '-' :: pad2 d.day ++
    'T' :: pad2 d.hour ++ ':' :: pad2 d.minute ++ ':' :: pad2 d.second

/-- Model of Python `datetime.fromisoformat` restricted to the
`YYYY-MM-DDTHH:MM:SS` shape produced by `isoformat` above; any other
input is a parse failure (`none`, standing for Python's `ValueError`). -/
def fromIso : List Char → Option PyDateTime
  | [y1, y2, y3, y4, s1, m1, m2, s2, d1, d2, t1, h1, h2, c1, n1, n2, c2, e1, e2] =>
    if y1.isDigit && y2.isDigit && y3.isDigit && y4.isDigit &&
        (s1 == '-') && m1.isDigit && m2.isDigit && (s2 == '-') &&
        d1.isDigit && d2.isDigit && (t1 == 'T') && h1.isDigit && h2.isDigit &&
        (c1 == ':') && n1.isDigit && n2.isDigit && (c2 == ':') &&
        e1.isDigit && e2.isDigit then
      some ⟨charVal y1 * 1000 + charVal y2 * 100 + charVal y3 * 10 + charVal y4,
            charVal m1 * 10 + charVal m2,
            charVal d1 * 10 + charVal d2,
            charVal h1 * 10 + charVal h2,
            charVal n1 * 10 + charVal n2,
            charVal e1 * 10 + charVal e2⟩
    else none
  | _ => none

theorem digitChar_isDigit (n : Nat) : (digitChar n).isDigit = true := by
  have h : n % 10 < 10 := Nat.mod_lt _ (by omega)
  have haux : ∀ k, k < 10 → (Char.ofNat (48 + k)).isDigit = true := by decide
  exact haux _ h

theorem charVal_digitChar (n : Nat) : charVal (digitChar n) = n % 10 := by
  have h : n % 10 < 10 := Nat.mod_lt _ (by omega)
  have haux : ∀ k, k < 10 → charVal (Char.ofNat (48 + k)) = k := by decide
  have := haux _ h
  simpa [digitChar] using this

/-- Parsing inverts rendering on datetimes within the constructor ranges. -/
theorem fromIso_isoformat (d : PyDateTime) (h : d.Valid) :
    fromIso (isoformat d) = some d := by
  obtain ⟨y, mo, dy, hr, mi, se⟩ := d
  simp only [PyDateTime.Valid] at h
  obtain ⟨h1, h2, h3, h4, h5, h6, h7, h8, h9⟩ := h
  show fromIso [digitChar (y / 1000), digitChar (y / 100), digitChar (y / 10),
      digitChar y, '-', digitChar (mo / 10), digitChar mo, '-',
      digitChar (dy / 10), digitChar dy, 'T', digitChar (hr / 10), digitChar hr,
      ':', digitChar (mi / 10), digitChar mi, ':',
      digitChar (se / 10), digitChar se] = some ⟨y, mo, dy, hr, mi, se⟩
  simp only [fromIso, digitChar_isDigit, charVal_digitChar, beq_self_eq_true,
    Bool.and_self, Bool.and_true, Bool.true_and, if_true, Option.some.injEq,
    PyDateTime.mk.injEq]
  refine ⟨?_, ?_, ?_, ?_, ?_, ?_⟩ <;> omega

/-! ## The `Post` record (`scraper.py`) and its dictionary serialization -/

structure Post where
  url : String
  title : String
  slug : String
  date : Option PyDateTime := none
  subtitle : Option String := none
  author : Option String := none
  is_paid : Bool := false
  is_podcast : Bool := false
  excerpt : Option String := none
  word_count : Nat := 0
  read_time : Nat := 0
deriving DecidableEq, Repr

/-- The dictionary produced by `Post.to_dict`: all `Post` fields, with the
date field carried as ISO text (or absent). -/
structure PostDict where
  url : String
  title : String
  slug : String
  date : Option (List Char)
  subtitle : Option String
  author : Option String
  is_paid : Bool
  is_podcast : Bool
  excerpt : Option String
  word_count : Nat
  read_time : Nat
deriving DecidableEq, Repr

/-- Model of `Post.to_dict`: `asdict(self)` with the date replaced by its
`isoformat()` text when present (a `datetime` is always truthy, so
`if self.date:` fires exactly when the date is not `None`). -/
def Post.to_dict (p : Post) : PostDict :=
  { url := p.url, title := p.title, slug := p.slug,
    date := p.date.map isoformat,
    subtitle := p.subtitle, author := p.author,
    is_paid := p.is_paid, is_podcast := p.is_podcast,
    excerpt := p.excerpt, word_count := p.word_count, read_time := p.read_time }

/-- Model of `Post.from_dict`: a present date string is parsed with
`datetime.fromisoformat` (a parse error raises, modelled as `none`);
an absent date stays `None`. -/
def Post.from_dict (d : PostDict) : Option Post :=
  match d.date with
  | none =>
    some { url := d.url, title := d.title, slug := d.slug, date := none,
           subtitle := d.subtitle, author := d.author,
           is_paid := d.is_paid, is_podcast := d.is_podcast,
           excerpt := d.excerpt, word_count := d.word_count,
           read_time := d.read_time }
  | some s =>
    match fromIso s with
    | some dt =>
      some { url := d.url, title := d.title, slug := d.slug, date := some dt,
             subtitle := d.subtitle, author := d.author,
             is_paid := d.is_paid, is_podcast := d.is_podcast,
             excerpt := d.excerpt, word_count := d.word_count,
             read_time := d.read_time }
    | none => none

/-- C9: the `Post` record's dictionary serialization round-trips:
`Post.from_dict (Post.to_dict p)` recovers `p` exactly (for any combination
of absent optional fields); a present date survives via its ISO-format text
and an absent date round-trips as `None`, never as a placeholder.  The
hypothesis states that any present date is a value the `datetime`
constructor can produce. -/
theorem claim_C9_post_dict_roundtrip (p : Post)
    (h : ∀ dt, p.date = some dt → dt.Valid) :
    Post.from_dict (Post.to_dict p) = some p := by
  obtain ⟨u, t, s, dte, st, au, ip, ipc, ex, wc, rt⟩ := p
  cases dte with
  | none => rfl
  | some dt =>
    have hv : dt.Valid := h dt rfl
    simp only [Post.to_dict, Post.from_dict, Option.map_some']
    rw [fromIso_isoformat dt hv]

/-- Witness for C9 at a concrete post carrying a date. -/
theorem claim_C9_post_dict_roundtrip_witness :
    Post.from_dict (Post.to_dict
      { url := "https://x.substack.com/p/a", title := "A", slug := "a",
        date := some ⟨2024, 3, 1, 12, 30, 5⟩ }) =
      some { url := "https://x.substack.com/p/a", title := "A", slug := "a",
             date := some ⟨2024, 3, 1, 12, 30, 5⟩ } :=
  claim_C9_post_dict_roundtrip _ (by
    intro dt hdt
    injection hdt with h
    subst h
    decide)

/-! ## Discovery engine (`SubstackScraper.get_all_posts`) -/

/-- The slice of `Config` consumed by the discovery/filtering code. -/
structure ScrapeConfig where
  substack_url : String := ""
  start_date : Option PyDateTime := none
  end_date : Option PyDateTime := none
  paid_only : Bool := false
deriving Repr

/-- Deduplication loop of `get_all_posts`: first occurrence of each URL
wins, tracked through the `seen_urls` set. -/
def dedupAux (seen : List String) : List Post → List Post
  | [] => []
  | p :: rest =>
    if p.url ∈ seen then dedupAux seen rest
    else p :: dedupAux (p.url :: seen) rest

/-- Deduplicate by URL starting from an empty `seen_urls` set. -/
def dedupByUrl (posts : List Post) : List Post := dedupAux [] posts

/-- Sort key of `get_all_posts`: `p.date or datetime.min` (an absent date
sorts as `datetime.min`), linearized through `dtKey`. -/
def sortKey (p : Post) : Nat := dtKey (p.date.getD pyDatetimeMin)

/-- Model of `unique_posts.sort(key=lambda p: p.date or datetime.min,
reverse=True)`.  Python's `list.sort` is a stable sort; with
`reverse=True` it places `a` before `b` exactly when `key a > key b`, or
when the keys are equal and `a` came first.  `List.mergeSort` with the
comparator below is a stable sort for the same total preorder, hence
computes the same list. -/
def sortPosts (posts : List Post) : List Post :=
  posts.mergeSort (fun a b => decide (sortKey b ≤ sortKey a))

/-- Model of `SubstackScraper._apply_filters`: start-date lower bound
(entries with a missing date pass), then end-date upper bound (missing
date passes), then the paid-only filter. -/
def applyFilters (cfg : ScrapeConfig) (posts : List Post) : List Post :=
  let f1 :=
    match cfg.start_date with
    | none => posts
    | some d =>
      posts.filter fun p =>
        match p.date with
        | none => true
        | some pd => decide (dtKey d ≤ dtKey pd)
  let f2 :=
    match cfg.end_date with
    | none => f1
    | some d =>
      f1.filter fun p =>
        match p.date with
        | none => true
        | some pd => decide (dtKey pd ≤ dtKey d)
  if cfg.paid_only then f2.filter (fun p => p.is_paid) else f2

/-- Post-merge stage of `get_all_posts`: deduplicate by URL, then the
stable descending sort (filters are applied afterwards). -/
def mergeCatalog (posts : List Post) : List Post := sortPosts (dedupByUrl posts)

/-- The three discovery strategies, in priority order. -/
inductive Strategy where
  | api
  | archive
  | sitemap
deriving DecidableEq, Repr

/-- Model of `get_all_posts`, parameterized by the entry lists each
strategy would produce.  Mirrors the control flow: the API strategy always
runs; the archive scrape runs only `if not posts`; the sitemap scan runs
only if the list is still empty; then dedup, sort and filters.  Returns
the catalog together with the list of strategies consulted. -/
def getAllPosts (cfg : ScrapeConfig)
    (apiPosts archivePosts sitemapPosts : List Post) :
    List Post × List Strategy :=
  let posts1 := apiPosts
  let posts2 := if posts1.isEmpty then archivePosts else posts1
  let consulted2 :=
    if posts1.isEmpty then [Strategy.api, Strategy.archive] else [Strategy.api]
  let posts3 := if posts2.isEmpty then sitemapPosts else posts2
  let consulted3 :=
    if posts2.isEmpty then consulted2 ++ [Strategy.sitemap] else consulted2
  (applyFilters cfg (sortPosts (dedupByUrl posts3)), consulted3)

/-- Comparator passed to the stable sort: `a` may precede `b` when
`key(b) <= key(a)` (descending order on `sortKey`). -/
def postGeKey (a b : Post) : Bool := decide (sortKey b ≤ sortKey a)

theorem postGeKey_trans (a b c : Post) :
    postGeKey a b → postGeKey b c → postGeKey a c := by
  simp only [postGeKey, decide_eq_true_eq]
  omega

theorem postGeKey_total (a b : Post) : postGeKey a b || postGeKey b a := by
  simp only [postGeKey, Bool.or_eq_true, decide_eq_true_eq]
  omega

theorem sortPosts_eq_mergeSort (l : List Post) :
    sortPosts l = l.mergeSort postGeKey := rfl

theorem sortPosts_pairwise (l : List Post) :
    (sortPosts l).Pairwise fun a b => sortKey b ≤ sortKey a := by
  have h := List.sorted_mergeSort postGeKey_trans postGeKey_total l
  rw [← sortPosts_eq_mergeSort] at h
  exact h.imp (by simp only [postGeKey, decide_eq_true_eq]; exact id)

theorem sortPosts_filter_key (l : List Post) (k : Nat) :
    (sortPosts l).filter (fun p => sortKey p == k) =
      l.filter (fun p => sortKey p == k) := by
  have hsub : List.Sublist (l.filter (fun p => sortKey p == k)) l :=
    List.filter_sublist l
  have hpair :
      (l.filter (fun p => sortKey p == k)).Pairwise
        (fun a b => postGeKey a b = true) := by
    refine List.pairwise_of_forall_mem_list ?_
    intro a ha b hb
    have hak := (List.mem_filter.mp ha).2
    have hbk := (List.mem_filter.mp hb).2
    simp only [beq_iff_eq] at hak hbk
    simp [postGeKey, hak, hbk]
  have hstab :
      List.Sublist (l.filter (fun p => sortKey p == k)) (sortPosts l) := by
    rw [sortPosts_eq_mergeSort]
    exact List.sublist_mergeSort postGeKey_trans postGeKey_total hpair hsub
  have hself :
      (l.filter (fun p => sortKey p == k)).filter (fun p => sortKey p == k) =
        l.filter (fun p => sortKey p == k) :=
    List.filter_eq_self.mpr fun a ha => (List.mem_filter.mp ha).2
  have hsub2 :
      List.Sublist (l.filter (fun p => sortKey p == k))
        ((sortPosts l).filter (fun p => sortKey p == k)) := by
    have := hstab.filter (fun p => sortKey p == k)
    rwa [hself] at this
  have hperm : List.Perm ((sortPosts l).filter (fun p => sortKey p == k))
      (l.filter (fun p => sortKey p == k)) := by
    rw [sortPosts_eq_mergeSort]
    exact (List.mergeSort_perm l postGeKey).filter _
  exact (hsub2.eq_of_length hperm.length_eq.symm).symm

theorem mem_sortPosts {p : Post} {l : List Post} : p ∈ sortPosts l ↔ p ∈ l := by
  rw [sortPosts_eq_mergeSort]
  exact List.mem_mergeSort

theorem mem_dedupAux {p : Post} :
    ∀ {seen : List String} {l : List Post}, p ∈ dedupAux seen l → p ∈ l := by
  intro seen l
  induction l generalizing seen with
  | nil => simp [dedupAux]
  | cons q rest ih =>
    intro h
    simp only [dedupAux] at h
    by_cases hq : q.url ∈ seen
    · simp only [if_pos hq] at h
      exact List.mem_cons_of_mem _ (ih h)
    · simp only [if_neg hq] at h
      rcases List.mem_cons.mp h with h | h
      · exact h ▸ List.mem_cons_self _ _
      · exact List.mem_cons_of_mem _ (ih h)

theorem mem_mergeCatalog {p : Post} {l : List Post} :
    p ∈ mergeCatalog l → p ∈ l := by
  intro h
  exact mem_dedupAux (mem_sortPosts.mp h)

/-- Strictness of descent between two catalog entries, as the C1 claim
demands it: whenever both entries carry a date, the later entry's date is
strictly smaller. -/
def strictAfterB (a b : Post) : Bool :=
  match a.date, b.date with
  | some da, some db => decide (dtKey db < dtKey da)
  | _, _ => true

/-- The C1 claim's first conjunct: dated entries in strictly descending
date order. -/
def StrictDescByDate (l : List Post) : Prop :=
  l.Pairwise fun a b => strictAfterB a b = true

/-- The C1 claim's second conjunct: no undated entry precedes a dated
entry (equivalently, every undated entry is placed after all dated
entries). -/
def UndatedAfterDated (l : List Post) : Prop :=
  l.Pairwise fun a b => a.date = none → b.date = none

/-- The C1 claim's third conjunct: the subsequence of undated entries is
unchanged (original discovery order). -/
def UndatedStable (before after : List Post) : Prop :=
  after.filter (fun p => p.date.isNone) = before.filter (fun p => p.date.isNone)

/-- Two posts sharing one publication date, an undated post, and a post
dated exactly `datetime.min`, in this discovery order. -/
def cexA : Post :=
  { url := "u1", title := "A", slug := "a", date := some ⟨2024, 5, 1, 0, 0, 0⟩ }

def cexB : Post :=
  { url := "u2", title := "B", slug := "b", date := some ⟨2024, 5, 1, 0, 0, 0⟩ }

def cexC : Post := { url := "u3", title := "C", slug := "c" }

def cexD : Post :=
  { url := "u4", title := "D", slug := "d", date := some pyDatetimeMin }

/-- C1 (counterexample): on the discovery list `[cexA, cexB, cexC, cexD]`
the merged catalog is `[cexA, cexB, cexC, cexD]` itself, which violates
the claim: `cexA` and `cexB` share a date (order among dated entries is
not strictly descending), and the undated `cexC` precedes the dated
`cexD` (an entry dated exactly `datetime.min` ties with undated entries
instead of preceding them). -/
theorem claim_C1_counterexample :
    ¬ (StrictDescByDate (mergeCatalog [cexA, cexB, cexC, cexD]) ∧
       UndatedAfterDated (mergeCatalog [cexA, cexB, cexC, cexD]) ∧
       UndatedStable (dedupByUrl [cexA, cexB, cexC, cexD])
         (mergeCatalog [cexA, cexB, cexC, cexD])) := by
  have hd : dedupByUrl [cexA, cexB, cexC, cexD] = [cexA, cexB, cexC, cexD] := by
    decide
  have hs : mergeCatalog [cexA, cexB, cexC, cexD] = [cexA, cexB, cexC, cexD] := by
    show sortPosts (dedupByUrl [cexA, cexB, cexC, cexD]) = _
    rw [hd, sortPosts_eq_mergeSort]
    exact List.mergeSort_of_sorted (by decide)
  rw [hs, hd]
  unfold StrictDescByDate UndatedAfterDated UndatedStable
  decide

/-- C1 (amended): after deduplication the merged catalog is sorted in
non-strictly descending order of the key `date or datetime.min`; whatever
follows an undated entry is undated or dated at most `datetime.min` (so
every entry dated strictly after `datetime.min` precedes every undated
entry); for every key value the subsequence of entries with that key keeps
its discovery order — in particular the relative order among undated
entries equals their original discovery order. -/
theorem claim_C1_catalog_order (l : List Post) :
    ((mergeCatalog l).Pairwise fun a b => sortKey b ≤ sortKey a) ∧
    ((mergeCatalog l).Pairwise fun a b =>
        a.date = none → ∀ db, b.date = some db → dtKey db ≤ dtKey pyDatetimeMin) ∧
    (∀ k, (mergeCatalog l).filter (fun p => sortKey p == k) =
        (dedupByUrl l).filter (fun p => sortKey p == k)) ∧
    UndatedStable (dedupByUrl l) (mergeCatalog l) := by
  have hpair := sortPosts_pairwise (dedupByUrl l)
  refine ⟨hpair, ?_, fun k => sortPosts_filter_key (dedupByUrl l) k, ?_⟩
  · refine hpair.imp ?_
    intro a b hab hnone db hdb
    simp only [sortKey, hnone, hdb, Option.getD_some, Option.getD_none] at hab
    exact hab
  · have h3 := sortPosts_filter_key (dedupByUrl l) (dtKey pyDatetimeMin)
    have key0 : ∀ p : Post, p.date.isNone =
        (p.date.isNone && (sortKey p == dtKey pyDatetimeMin)) := by
      intro p
      cases hp : p.date <;> simp [sortKey, hp]
    show (sortPosts (dedupByUrl l)).filter (fun p => p.date.isNone) =
      (dedupByUrl l).filter (fun p => p.date.isNone)
    calc (sortPosts (dedupByUrl l)).filter (fun p => p.date.isNone)
        = (sortPosts (dedupByUrl l)).filter
            (fun p => p.date.isNone && (sortKey p == dtKey pyDatetimeMin)) :=
          List.filter_congr fun a _ => key0 a
      _ = ((sortPosts (dedupByUrl l)).filter
            (fun p => sortKey p == dtKey pyDatetimeMin)).filter
            (fun p => p.date.isNone) :=
          (List.filter_filter _ _).symm
      _ = ((dedupByUrl l).filter
            (fun p => sortKey p == dtKey pyDatetimeMin)).filter
            (fun p => p.date.isNone) := by rw [h3]
      _ = (dedupByUrl l).filter
            (fun p => p.date.isNone && (sortKey p == dtKey pyDatetimeMin)) :=
          List.filter_filter _ _
      _ = (dedupByUrl l).filter (fun p => p.date.isNone) :=
          (List.filter_congr fun a _ => key0 a).symm

theorem mem_applyFilters {cfg : ScrapeConfig} {p : Post} {l : List Post} :
    p ∈ applyFilters cfg l → p ∈ l := by
  rcases cfg with ⟨u, sd, ed, po⟩
  intro h
  cases sd <;> cases ed <;> cases po <;>
    simp only [applyFilters, if_true, if_false, Bool.false_eq_true,
      List.mem_filter] at h <;> tauto

/-- C4: discovery runs API, archive and sitemap strategies in fixed
priority order and the first non-empty one wins: when an earlier strategy
returns a non-empty list, later strategies are not consulted and the
catalog is built from the earlier strategy's entries alone; a later
strategy is consulted only when every prior strategy returned zero
entries. -/
theorem claim_C4_first_nonempty_strategy_wins (cfg : ScrapeConfig)
    (apiPosts archivePosts sitemapPosts : List Post) :
    (apiPosts ≠ [] →
      getAllPosts cfg apiPosts archivePosts sitemapPosts =
        (applyFilters cfg (sortPosts (dedupByUrl apiPosts)), [Strategy.api]) ∧
      ∀ p ∈ (getAllPosts cfg apiPosts archivePosts sitemapPosts).1,
        p ∈ apiPosts) ∧
    (apiPosts = [] → archivePosts ≠ [] →
      getAllPosts cfg apiPosts archivePosts sitemapPosts =
        (applyFilters cfg (sortPosts (dedupByUrl archivePosts)),
          [Strategy.api, Strategy.archive]) ∧
      ∀ p ∈ (getAllPosts cfg apiPosts archivePosts sitemapPosts).1,
        p ∈ archivePosts) ∧
    (apiPosts = [] → archivePosts = [] →
      getAllPosts cfg apiPosts archivePosts sitemapPosts =
        (applyFilters cfg (sortPosts (dedupByUrl sitemapPosts)),
          [Strategy.api, Strategy.archive, Strategy.sitemap])) := by
  refine ⟨?_, ?_, ?_⟩
  · intro hne
    have hie : apiPosts.isEmpty = false := by
      cases apiPosts with
      | nil => exact absurd rfl hne
      | cons a t => rfl
    constructor
    · simp [getAllPosts, hie]
    · intro p hp
      simp only [getAllPosts, hie, Bool.false_eq_true, if_false] at hp
      exact mem_dedupAux (mem_sortPosts.mp (mem_applyFilters hp))
  · intro hapi hne
    subst hapi
    have hie : archivePosts.isEmpty = false := by
      cases archivePosts with
      | nil => exact absurd rfl hne
      | cons a t => rfl
    constructor
    · simp [getAllPosts, hie]
    · intro p hp
      simp only [getAllPosts, List.isEmpty_nil, if_true, hie,
        Bool.false_eq_true, if_false] at hp
      exact mem_dedupAux (mem_sortPosts.mp (mem_applyFilters hp))
  · intro hapi harc
    subst hapi
    subst harc
    simp [getAllPosts]

/-- Witness for C4: with a non-empty API result the archive and sitemap
lists do not influence the catalog and only the API strategy is consulted. -/
theorem claim_C4_first_nonempty_strategy_wins_witness :
    getAllPosts {} [cexA] [cexB] [cexC] =
      (applyFilters {} (sortPosts (dedupByUrl [cexA])), [Strategy.api]) :=
  ((claim_C4_first_nonempty_strategy_wins {} [cexA] [cexB] [cexC]).1
    (by simp)).1

/-- C5: with a configured start date `D`, `_apply_filters` removes exactly
the entries whose date is strictly before `D`, keeps every entry with an
absent date, and keeps entries dated on or after `D` (order preserved:
the result is the evident filter of the input). -/
theorem claim_C5_start_date_filter (u : String) (D : PyDateTime)
    (l : List Post) :
    applyFilters { substack_url := u, start_date := some D } l =
      l.filter (fun p =>
        match p.date with
        | none => true
        | some pd => decide (dtKey D ≤ dtKey pd)) ∧
    ∀ p, p ∈ applyFilters { substack_url := u, start_date := some D } l ↔
      p ∈ l ∧ (p.date = none ∨ ∃ pd, p.date = some pd ∧ dtKey D ≤ dtKey pd) := by
  have heq : applyFilters { substack_url := u, start_date := some D } l =
      l.filter (fun p =>
        match p.date with
        | none => true
        | some pd => decide (dtKey D ≤ dtKey pd)) := rfl
  refine ⟨heq, ?_⟩
  intro p
  rw [heq, List.mem_filter]
  constructor
  · rintro ⟨hmem, hpred⟩
    refine ⟨hmem, ?_⟩
    cases hp : p.date with
    | none => exact Or.inl rfl
    | some pd =>
      refine Or.inr ⟨pd, rfl, ?_⟩
      rw [hp] at hpred
      simpa using hpred
  · rintro ⟨hmem, hdate⟩
    refine ⟨hmem, ?_⟩
    rcases hdate with hnone | ⟨pd, hpd, hle⟩
    · simp [hnone]
    · simp [hpd, hle]

/-! ## Metadata refinement (`SubstackScraper._update_post_metadata`) -/

/-- What the full fetched page offers to `_update_post_metadata`, at the
BeautifulSoup boundary: for each selector group, `some s` when an element
matched (with `s` its `get_text(strip=True)` text), `none` when nothing
matched.  `dateParsed` is `some dt` exactly when a date element matched
and `datetime.fromisoformat` succeeded on its attribute/text. -/
structure PageMeta where
  titleText : Option String := none
  subtitleText : Option String := none
  authorText : Option String := none
  dateParsed : Option PyDateTime := none
deriving Repr

/-- Model of `_update_post_metadata`: title, subtitle and author are
overwritten whenever the corresponding selector matched; the date is
consulted only when the post has no date yet. -/
def updatePostMetadata (post : Post) (page : PageMeta) : Post :=
  { post with
    title := match page.titleText with
      | some s => s
      | none => post.title,
    subtitle := match page.subtitleText with
      | some s => some s
      | none => post.subtitle,
    author := match page.authorText with
      | some s => some s
      | none => post.author,
    date := match post.date with
      | some d => some d
      | none => page.dateParsed }

/-- C2 (counterexample): a page on which the title selector matches an
element whose stripped text is empty replaces a populated title with the
empty string — refinement does downgrade a populated field to empty. -/
theorem claim_C2_counterexample :
    "Old" ≠ "" ∧
      (updatePostMetadata { url := "u", title := "Old", slug := "s" }
        { titleText := some "" }).title = "" := by
  exact ⟨by decide, rfl⟩

/-- An option-valued string field counts as populated when it holds a
non-empty string (Python truthiness of `Optional[str]`). -/
def populatedOpt (o : Option String) : Prop := ∃ s, o = some s ∧ s ≠ ""

/-- C2 (amended): refinement never replaces a populated field with an
empty value provided every matched page element carries non-empty
stripped text; a field whose selector matches nothing is left unchanged,
and an already-populated date is never changed at all. -/
theorem claim_C2_no_empty_downgrade (post : Post) (page : PageMeta)
    (htitle : ∀ s, page.titleText = some s → s ≠ "")
    (hsub : ∀ s, page.subtitleText = some s → s ≠ "")
    (hauth : ∀ s, page.authorText = some s → s ≠ "") :
    (post.title ≠ "" → (updatePostMetadata post page).title ≠ "") ∧
    (populatedOpt post.subtitle →
      populatedOpt (updatePostMetadata post page).subtitle) ∧
    (populatedOpt post.author →
      populatedOpt (updatePostMetadata post page).author) ∧
    (∀ d, post.date = some d → (updatePostMetadata post page).date = some d) := by
  refine ⟨?_, ?_, ?_, ?_⟩
  · intro hne
    cases ht : page.titleText with
    | none => simpa [updatePostMetadata, ht] using hne
    | some s => simpa [updatePostMetadata, ht] using htitle s ht
  · intro hpop
    cases hs : page.subtitleText with
    | none => simpa [updatePostMetadata, hs] using hpop
    | some s => exact ⟨s, by simp [updatePostMetadata, hs], hsub s hs⟩
  · intro hpop
    cases ha : page.authorText with
    | none => simpa [updatePostMetadata, ha] using hpop
    | some s => exact ⟨s, by simp [updatePostMetadata, ha], hauth s ha⟩
  · intro d hd
    simp [updatePostMetadata, hd]

/-- Witness for C2 (amended): a populated post refined against a page
whose matched elements all carry non-empty text keeps every field
populated, and the date is untouched. -/
theorem claim_C2_no_empty_downgrade_witness :
    (updatePostMetadata
        { url := "u", title := "Old", slug := "s",
          subtitle := some "Sub", author := some "Ann",
          date := some ⟨2024, 1, 2, 0, 0, 0⟩ }
        { titleText := some "New", subtitleText := none,
          authorText := some "Bea", dateParsed := none }).title ≠ "" ∧
    (updatePostMetadata
        { url := "u", title := "Old", slug := "s",
          subtitle := some "Sub", author := some "Ann",
          date := some ⟨2024, 1, 2, 0, 0, 0⟩ }
        { titleText := some "New", subtitleText := none,
          authorText := some "Bea", dateParsed := none }).date =
      some ⟨2024, 1, 2, 0, 0, 0⟩ := by
  have h := claim_C2_no_empty_downgrade
    { url := "u", title := "Old", slug := "s",
      subtitle := some "Sub", author := some "Ann",
      date := some ⟨2024, 1, 2, 0, 0, 0⟩ }
    { titleText := some "New", subtitleText := none,
      authorText := some "Bea", dateParsed := none }
    (by intro s hs; injection hs with h; subst h; decide)
    (by intro s hs; simp at hs)
    (by intro s hs; injection hs with h; subst h; decide)
  exact ⟨h.1 (by decide), h.2.2.2 _ rfl⟩

/-! ## Fetch retry/backoff (`SubstackBrowser.get_page`) -/

/-- Model of `SubstackBrowser.get_page`, instrumented.  `rl n` says
whether the attempt made with retry counter `n` sees the rate-limit
signal (`'too many requests'` in the page source).  The result triple is
(page content if any, number of attempts performed, total extra wait
spent in the rate-limit `time.sleep(wait_time)` calls); the fixed
per-request delay `time.sleep(self.config.request_delay)` is not part of
the extra-wait count.  On a rate-limit signal with `retry <
max_retries`, the code waits `(retry + 1) * 15` and recurses with
`retry + 1`; once `retry = max_retries` it returns no content. -/
def getPage (maxRetries : Nat) (rl : Nat → Bool) (retry : Nat) :
    Option Unit × Nat × Nat :=
  if rl retry then
    if h : retry < maxRetries then
      let r := getPage maxRetries rl (retry + 1)
      (r.1, r.2.1 + 1, r.2.2 + (retry + 1) * 15)
    else (none, 1, 0)
  else (some (), 1, 0)
termination_by maxRetries + 1 - retry
decreasing_by omega

theorem getPage_allRL (m : Nat) (rl : Nat → Bool) (h : ∀ n, rl n = true) :
    ∀ k retry, m - retry = k → retry ≤ m →
      getPage m rl retry =
        (none, k + 1, ∑ i ∈ Finset.Ico retry m, (i + 1) * 15) := by
  intro k
  induction k with
  | zero =>
    intro retry hk hle
    have hrm : retry = m := by omega
    subst hrm
    rw [getPage]
    simp [h, Finset.Ico_self]
  | succ k ih =>
    intro retry hk hle
    have hlt : retry < m := by omega
    rw [getPage]
    simp only [h, if_true, dif_pos hlt]
    rw [ih (retry + 1) (by omega) (by omega)]
    have hsum : ∑ i ∈ Finset.Ico retry m, (i + 1) * 15 =
        (retry + 1) * 15 + ∑ i ∈ Finset.Ico (retry + 1) m, (i + 1) * 15 :=
      Finset.sum_eq_sum_Ico_succ_bot hlt _
    simp [hsum]
    omega

/-- C3: if the fetch sees a rate-limit signal on every attempt, it
returns failure (no content) after exactly `max_retries + 1` attempts,
and the total extra wait spent before retries is
`1*15 + 2*15 + ... + max_retries*15` time units. -/
theorem claim_C3_rate_limit_exhaustion (maxRetries : Nat) (rl : Nat → Bool)
    (h : ∀ n, rl n = true) :
    getPage maxRetries rl 0 =
      (none, maxRetries + 1, ∑ i ∈ Finset.range maxRetries, (i + 1) * 15) := by
  have hall := getPage_allRL maxRetries rl h maxRetries 0 (by omega) (by omega)
  rw [hall, Finset.range_eq_Ico]

/-- Witness for C3: with `max_retries = 3` and every attempt
rate-limited, the fetch fails after 4 attempts with a total extra wait of
`15 + 30 + 45 = 90` time units. -/
theorem claim_C3_rate_limit_exhaustion_witness :
    getPage 3 (fun _ => true) 0 = (none, 4, 90) := by
  have h := claim_C3_rate_limit_exhaustion 3 (fun _ => true) (fun _ => rfl)
  rw [h]
  norm_num [Finset.sum_range_succ]

/-! ## Media resolver (`MarkdownConverter.download_images`) -/

/-- An `<img>` tag as seen by the download loop: its `src` and `data-src`
attributes (absent or possibly empty) and its `alt` text. -/
structure ImgTag where
  src : Option String := none
  dataSrc : Option String := none
  alt : String := ""
deriving Repr

/-- An entry of the resulting image list:
`{'url': ..., 'local_path': ..., 'alt': ...}`. -/
structure ImgEntry where
  url : String
  local_path : String
  alt : String
deriving DecidableEq, Repr

/-- Prefix test over the characters of two strings (model of Python
`str.startswith`, and of Lean's `String.startsWith`, in a form the kernel
evaluates). -/
def listStarts : List Char → List Char → Bool
  | _, [] => true
  | [], _ :: _ => false
  | c :: cs, p :: ps => c == p && listStarts cs ps

/-- Model of `s.startswith(pre)`. -/
def strStarts (s pre : String) : Bool := listStarts s.data pre.data

/-- Python string truthiness for an optional attribute: an absent or
empty string is falsy. -/
def truthyStr (o : Option String) : Option String :=
  match o with
  | some s => if s = "" then none else some s
  | none => none

/-- Model of `img.get('src') or img.get('data-src')`. -/
def effectiveSrc (img : ImgTag) : Option String :=
  match truthyStr img.src with
  | some s => some s
  | none => truthyStr img.dataSrc

/-- Scheme-plus-authority of a URL (text before the first `/` that
follows `://`). -/
def splitScheme : List Char → Option (List Char × List Char)
  | ':' :: '/' :: '/' :: rest => some ([], rest)
  | c :: rest =>
    match splitScheme rest with
    | some (pre, post) => some (c :: pre, post)
    | none => none
  | [] => none

/-- Model of `urljoin(base, src)` for a root-relative `src` (the only way
the converter calls it): the result is `src` resolved against the scheme
and host of `base`. -/
def urljoinRoot (base src : String) : String :=
  match splitScheme base.data with
  | some (scheme, rest) =>
    String.mk (scheme ++ ':' :: '/' :: '/' :: rest.takeWhile (fun c => c ≠ '/'))
      ++ src
  | none => src

/-- URL normalization of the download loop: protocol-relative sources get
`https:`, root-relative sources are joined onto the publication URL,
anything else is untouched. -/
def normalizeImgSrc (baseUrl s : String) : String :=
  if strStarts s "//" then "https:" ++ s
  else if strStarts s "/" then urljoinRoot baseUrl s
  else s

/-- First-match lookup in the `_image_map` association list (entries are
consed on insert, so the first match is the most recent binding, matching
dict overwrite semantics). -/
def lookupMap (m : List (String × String)) (k : String) : Option String :=
  match m with
  | [] => none
  | (k0, v0) :: rest => if k0 = k then some v0 else lookupMap rest k

/-- Per-tag loop of `download_images`.  `dl` is the `_download_image`
oracle (local filename, or `none` on a failed download).  Returns the
image list, the final `_image_map`, and the number of `_download_image`
calls issued. -/
def downloadImagesGo (baseUrl : String) (dl : String → Option String)
    (m : List (String × String)) :
    List ImgTag → List ImgEntry × List (String × String) × Nat
  | [] => ([], m, 0)
  | img :: rest =>
    match effectiveSrc img with
    | none => downloadImagesGo baseUrl dl m rest
    | some s0 =>
      if strStarts s0 "data:" then downloadImagesGo baseUrl dl m rest
      else
        let s := normalizeImgSrc baseUrl s0
        match lookupMap m s with
        | some cached =>
          let r := downloadImagesGo baseUrl dl m rest
          (⟨s, cached, img.alt⟩ :: r.1, r.2.1, r.2.2)
        | none =>
          match dl s with
          | some fn =>
            let r := downloadImagesGo baseUrl dl ((s, fn) :: m) rest
            (⟨s, fn, img.alt⟩ :: r.1, r.2.1, r.2.2 + 1)
          | none =>
            let r := downloadImagesGo baseUrl dl m rest
            (r.1, r.2.1, r.2.2 + 1)

/-- Model of `MarkdownConverter.download_images`: nothing happens when
image downloading is disabled, otherwise the per-tag loop runs. -/
def downloadImages (downloadEnabled : Bool) (baseUrl : String)
    (dl : String → Option String) (m : List (String × String))
    (imgs : List ImgTag) : List ImgEntry × List (String × String) × Nat :=
  if downloadEnabled then downloadImagesGo baseUrl dl m imgs
  else ([], m, 0)

/-- C6: image resolution is idempotent with respect to downloads within
one converter instance: when every (normalized, non-data, non-empty)
image source URL of the content is already present in the in-memory
URL-to-filename cache, resolving that content issues zero
`_download_image` calls, leaves the cache unchanged, and every entry of
the resulting image list carries the cached local identifier for its
URL. -/
theorem claim_C6_cached_resolution_no_downloads (baseUrl : String)
    (dl : String → Option String) (m : List (String × String))
    (imgs : List ImgTag)
    (hcached : ∀ img ∈ imgs, ∀ s, effectiveSrc img = some s →
      strStarts s "data:" = false →
      (lookupMap m (normalizeImgSrc baseUrl s)).isSome = true) :
    (downloadImages true baseUrl dl m imgs).2.2 = 0 ∧
    (downloadImages true baseUrl dl m imgs).2.1 = m ∧
    ∀ e ∈ (downloadImages true baseUrl dl m imgs).1,
      lookupMap m e.url = some e.local_path := by
  show (downloadImagesGo baseUrl dl m imgs).2.2 = 0 ∧
    (downloadImagesGo baseUrl dl m imgs).2.1 = m ∧
    ∀ e ∈ (downloadImagesGo baseUrl dl m imgs).1,
      lookupMap m e.url = some e.local_path
  induction imgs with
  | nil => exact ⟨rfl, rfl, by intro e he; simp [downloadImagesGo] at he⟩
  | cons img rest ih =>
    have hrest := ih fun i hi => hcached i (List.mem_cons_of_mem _ hi)
    cases hsrc : effectiveSrc img with
    | none =>
      simpa [downloadImagesGo, hsrc] using hrest
    | some s0 =>
      by_cases hdata : strStarts s0 "data:" = true
      · simpa [downloadImagesGo, hsrc, hdata] using hrest
      · have hdata' : strStarts s0 "data:" = false := by
          cases hb : strStarts s0 "data:" with
          | true => exact absurd hb hdata
          | false => rfl
        have hk := hcached img (List.mem_cons_self _ _) s0 hsrc hdata'
        cases hl : lookupMap m (normalizeImgSrc baseUrl s0) with
        | none => rw [hl] at hk; simp at hk
        | some cached =>
          refine ⟨?_, ?_, ?_⟩
          · simp [downloadImagesGo, hsrc, hdata', hl, hrest.1]
          · simp [downloadImagesGo, hsrc, hdata', hl, hrest.2.1]
          · intro e he
            simp only [downloadImagesGo, hsrc, hdata', hl, Bool.false_eq_true,
              if_false, List.mem_cons] at he
            rcases he with he | he
            · subst he
              exact hl
            · exact hrest.2.2 e he

/-- Witness for C6: a cached source URL is resolved with zero downloads,
an unchanged cache, and the cached filename in the entry. -/
theorem claim_C6_cached_resolution_no_downloads_witness :
    (downloadImages true "https://x.substack.com" (fun _ => none)
        [("https://cdn.x.com/i.png", "img_abc.png")]
        [{ src := some "https://cdn.x.com/i.png", alt := "pic" }]).2.2 = 0 ∧
    (downloadImages true "https://x.substack.com" (fun _ => none)
        [("https://cdn.x.com/i.png", "img_abc.png")]
        [{ src := some "https://cdn.x.com/i.png", alt := "pic" }]).2.1 =
      [("https://cdn.x.com/i.png", "img_abc.png")] :=
  ⟨(claim_C6_cached_resolution_no_downloads "https://x.substack.com"
      (fun _ => none) [("https://cdn.x.com/i.png", "img_abc.png")]
      [{ src := some "https://cdn.x.com/i.png", alt := "pic" }] (by decide)).1,
   (claim_C6_cached_resolution_no_downloads "https://x.substack.com"
      (fun _ => none) [("https://cdn.x.com/i.png", "img_abc.png")]
      [{ src := some "https://cdn.x.com/i.png", alt := "pic" }] (by decide)).2.1⟩

/-! ## Configuration (`config.py`) -/

/-- Parse a one- or two-digit number between 1 and `maxV`, as the
`strptime` patterns for `%m`/`%d` do (two-digit forms tried first, then a
single non-zero digit); returns the value and the remaining input. -/
def parseNum2 (maxV : Nat) : List Char → Option (Nat × List Char)
  | c1 :: c2 :: rest =>
    if c1.isDigit && c2.isDigit then
      let v := charVal c1 * 10 + charVal c2
      if 1 ≤ v && v ≤ maxV then some (v, rest)
      else if 1 ≤ charVal c1 && charVal c1 ≤ 9 then some (charVal c1, c2 :: rest)
      else none
    else if c1.isDigit && 1 ≤ charVal c1 && charVal c1 ≤ 9 then
      some (charVal c1, c2 :: rest)
    else none
  | [c1] =>
    if c1.isDigit && 1 ≤ charVal c1 && charVal c1 ≤ 9 then some (charVal c1, [])
    else none
  | [] => none

/-- Model of `datetime.strptime(value, '%Y-%m-%d')`: four year digits,
a dash, a month (1..12), a dash, a day (1..31), end of input; any
mismatch or leftover input is a `ValueError` (`none`).  The
day-within-month consistency check done by the `datetime` constructor is
not modelled; the claims only exercise inputs that both accept or both
reject. -/
def parseDateYMD : List Char → Option PyDateTime
  | y1 :: y2 :: y3 :: y4 :: '-' :: rest1 =>
    if y1.isDigit && y2.isDigit && y3.isDigit && y4.isDigit then
      match parseNum2 12 rest1 with
      | some (mo, '-' :: rest2) =>
        match parseNum2 31 rest2 with
        | some (dy, []) =>
          some ⟨charVal y1 * 1000 + charVal y2 * 100 + charVal y3 * 10
            + charVal y4, mo, dy, 0, 0, 0⟩
        | _ => none
      | _ => none
    else none
  | _ => none

/-- Model of `get_date`: an unset or empty variable yields `None`
silently; a malformed value prints the invalid-format warning (second
component) and yields `None`; a well-formed value parses.  Nothing here
raises or aborts. -/
def getDate (raw : Option String) : Option PyDateTime × Bool :=
  match raw with
  | none => (none, false)
  | some v =>
    if v = "" then (none, false)
    else
      match parseDateYMD v.data with
      | some d => (some d, false)
      | none => (none, true)

/-- Model of `Config.validate`: the list of configuration error messages
it accumulates (the function prints them all and returns `False` iff the
list is non-empty).  Date filters are not consulted at all. -/
def validateConfig (url : String) (usb : Bool) (em pw : Option String) :
    List String :=
  (if url = "" then ["SUBSTACK_URL is required"]
   else if !(strStarts url "http") then
     ["SUBSTACK_URL must start with http:// or https://"]
   else [])
  ++
  (if !usb && !((truthyStr em).isSome && (truthyStr pw).isSome) then
     ["Either USE_BROWSER_SESSION must be true, or SUBSTACK_EMAIL and SUBSTACK_PASSWORD must be set"]
   else [])

/-- Truth value returned by `Config.validate`. -/
def configValid (url : String) (usb : Bool) (em pw : Option String) : Bool :=
  (validateConfig url usb em pw).isEmpty

/-- C7 (counterexample): with a valid source URL and browser-session
auth but a malformed `START_DATE` of `2024-13-99`, `get_date` merely
prints a warning and treats the filter as unset, and `Config.validate`
succeeds — startup proceeds to discovery, so a malformed date filter is
not a fatal configuration failure and is not part of the collected
violation report. -/
theorem claim_C7_counterexample :
    getDate (some "2024-13-99") = (none, true) ∧
    configValid "https://x.substack.com" true none none = true ∧
    validateConfig "https://x.substack.com" true none none = [] := by
  refine ⟨?_, ?_, ?_⟩ <;> decide

/-- C7 (amended): only a missing source URL, a source URL not starting
with `http`, and a non-viable auth mode are fatal at startup; those
violations are accumulated and reported together (each bad condition
contributes its message to the single error list, and validation fails
exactly when the list is non-empty).  A malformed start/end-date value is
not fatal: it produces a warning and the filter behaves as unset. -/
theorem claim_C7_startup_validation (url : String) (usb : Bool)
    (em pw : Option String) (raw : String) :
    (configValid url usb em pw = false ↔
      (url = "" ∨ strStarts url "http" = false ∨
        (usb = false ∧
          ((truthyStr em).isSome = false ∨ (truthyStr pw).isSome = false)))) ∧
    (url = "" → "SUBSTACK_URL is required" ∈ validateConfig url usb em pw) ∧
    (url ≠ "" → strStarts url "http" = false →
      "SUBSTACK_URL must start with http:// or https://" ∈
        validateConfig url usb em pw) ∧
    (usb = false →
      (truthyStr em).isSome = false ∨ (truthyStr pw).isSome = false →
      "Either USE_BROWSER_SESSION must be true, or SUBSTACK_EMAIL and SUBSTACK_PASSWORD must be set" ∈
        validateConfig url usb em pw) ∧
    (raw ≠ "" → parseDateYMD raw.data = none →
      getDate (some raw) = (none, true)) := by
  refine ⟨?_, ?_, ?_, ?_, ?_⟩
  · unfold configValid validateConfig
    by_cases hu : url = "" <;>
      cases hs : strStarts url "http" <;>
        cases usb <;>
          cases hem : (truthyStr em).isSome <;>
            cases hpw : (truthyStr pw).isSome <;>
              simp [hu, hs, hem, hpw]
  · intro hu
    unfold validateConfig
    simp [hu]
  · intro hu hs
    unfold validateConfig
    simp [hu, hs]
  · intro husb hbad
    unfold validateConfig
    rcases hbad with hb | hb <;> simp [husb, hb]
  · intro hne hparse
    unfold getDate
    simp [hne, hparse]

/-- Witness for C7 (amended): with an empty URL, no session reuse and no
credentials, both violations appear together in the report; and the
malformed date value `2024-13-99` is downgraded to an unset filter with
a warning. -/
theorem claim_C7_startup_validation_witness :
    "SUBSTACK_URL is required" ∈ validateConfig "" false none none ∧
    getDate (some "2024-13-99") = (none, true) := by
  have h := claim_C7_startup_validation "" false none none "2024-13-99"
  exact ⟨h.2.1 rfl, h.2.2.2.2 (by decide) (by decide)⟩

/-! ## Filename generation (`converter.generate_filename`) and resume-set
extraction (`main.get_downloaded_posts`) -/

/-- ASCII whitespace recognized by Python's regex `\s` and `str.strip`
(space, tab, newline, carriage return, vertical tab, form feed). -/
def isPyWs (c : Char) : Bool :=
  c == ' ' || c == '\t' || c == '\n' || c == '\r' ||
    c == Char.ofNat 11 || c == Char.ofNat 12

/-- ASCII lowering of one character (`str.lower` restricted to ASCII). -/
def pyLowerChar (c : Char) : Char :=
  if 'A' ≤ c && c ≤ 'Z' then Char.ofNat (c.toNat + 32) else c

/-- Model of `re.sub(r'[^\w\s-]', '', slug)`: keep word characters
(ASCII alphanumerics and underscore), whitespace and hyphens. -/
def sanitizeKeepWord (l : List Char) : List Char :=
  l.filter fun c => c.isAlphanum || c == '_' || isPyWs c || c == '-'

/-- Model of `re.sub(r'[\s_]+', '-', slug)`: each maximal run of
whitespace/underscore characters becomes a single hyphen. -/
def collapseWsUnderscore : List Char → List Char
  | [] => []
  | c :: rest =>
    if isPyWs c || c == '_' then
      '-' :: collapseWsUnderscore (rest.dropWhile fun d => isPyWs d || d == '_')
    else c :: collapseWsUnderscore rest
termination_by l => l.length
decreasing_by
  · have := (List.dropWhile_sublist (fun d => isPyWs d || d == '_')
      (l := rest)).length_le
    simp only [List.length_cons]
    omega
  · simp only [List.length_cons]
    omega

/-- Model of `str.strip(ch)`: remove the character from both ends. -/
def pyStripChar (ch : Char) (l : List Char) : List Char :=
  ((l.dropWhile fun c => c == ch).reverse.dropWhile fun c => c == ch).reverse

/-- Model of `generate_filename`: `<date:%Y-%m-%d|undated>-<slug>.md`,
where the slug source is `post.slug or post.title.lower()` sanitized to
word characters, whitespace/underscore runs collapsed to hyphens,
stripped of outer hyphens and truncated to 50 characters. -/
def generateFilename (p : Post) : List Char :=
  let pre : List Char :=
    match p.date with
    | some d => pad4 d.year ++ '-' :: pad2 d.month ++ '-' :: pad2 d.day
    | none => "undated".data
  let slug0 : List Char :=
    if p.slug = "" then p.title.data.map pyLowerChar else p.slug.data
  let s3 :=
    (pyStripChar '-' (collapseWsUnderscore (sanitizeKeepWord slug0))).take 50
  pre ++ '-' :: s3 ++ ".md".data

/-- Model of `str.split(sep, maxsplit)` for a one-character separator:
at most `maxSplit` splits, remainder kept whole. -/
def splitOnCharMax (sep : Char) : Nat → List Char → List (List Char)
  | 0, l => [l]
  | k + 1, l =>
    let a := l.takeWhile fun c => !(c == sep)
    match l.dropWhile fun c => !(c == sep) with
    | [] => [a]
    | _ :: t => a :: splitOnCharMax sep k t

/-- Model of `Path.stem` for the produced names: everything before the
last dot (the whole name if there is none). -/
def pyStem (l : List Char) : List Char :=
  match l.reverse.dropWhile fun c => !(c == '.') with
  | '.' :: t => t.reverse
  | _ => l

/-- Model of the slug extraction in `get_downloaded_posts`:
`parts = name.split('-', 3)`, take `parts[3]` when there are at least
four parts, else the whole stem. -/
def extractSlug (stem : List Char) : List Char :=
  match splitOnCharMax '-' 3 stem with
  | [_, _, _, s] => s
  | _ => stem

theorem digitChar_ne_hyphen (n : Nat) : (digitChar n == '-') = false := by
  have h : n % 10 < 10 := Nat.mod_lt _ (by omega)
  have haux : ∀ k, k < 10 → ((Char.ofNat (48 + k)) == '-') = false := by decide
  exact haux _ h

theorem mem_pad2_ne_hyphen (n : Nat) :
    ∀ c ∈ pad2 n, (c == '-') = false := by
  intro c hc
  simp only [pad2, List.mem_cons, List.not_mem_nil, or_false] at hc
  rcases hc with rfl | rfl <;> exact digitChar_ne_hyphen _

theorem mem_pad4_ne_hyphen (n : Nat) :
    ∀ c ∈ pad4 n, (c == '-') = false := by
  intro c hc
  simp only [pad4, List.mem_cons, List.not_mem_nil, or_false] at hc
  rcases hc with rfl | rfl | rfl | rfl <;> exact digitChar_ne_hyphen _

theorem takeWhile_neq_append (sep : Char) (a rest : List Char)
    (h : ∀ c ∈ a, (c == sep) = false) :
    ((a ++ sep :: rest).takeWhile fun c => !(c == sep)) = a := by
  induction a with
  | nil => simp [List.takeWhile_cons]
  | cons c a ih =>
    have hc := h c (List.mem_cons_self _ _)
    simp only [List.cons_append, List.takeWhile_cons, hc, Bool.not_false,
      if_true, List.cons.injEq, true_and]
    exact ih fun d hd => h d (List.mem_cons_of_mem _ hd)

theorem dropWhile_neq_append (sep : Char) (a rest : List Char)
    (h : ∀ c ∈ a, (c == sep) = false) :
    ((a ++ sep :: rest).dropWhile fun c => !(c == sep)) = sep :: rest := by
  induction a with
  | nil => simp [List.dropWhile_cons]
  | cons c a ih =>
    have hc := h c (List.mem_cons_self _ _)
    simp only [List.cons_append, List.dropWhile_cons, hc, Bool.not_false,
      if_true]
    exact ih fun d hd => h d (List.mem_cons_of_mem _ hd)

theorem splitOnCharMax_step (sep : Char) (k : Nat) (a rest : List Char)
    (h : ∀ c ∈ a, (c == sep) = false) :
    splitOnCharMax sep (k + 1) (a ++ sep :: rest) =
      a :: splitOnCharMax sep k rest := by
  simp only [splitOnCharMax, takeWhile_neq_append sep a rest h,
    dropWhile_neq_append sep a rest h]

theorem dropWhile_head_false {p : Char → Bool} :
    ∀ {l : List Char} {c : Char} {t : List Char},
      l.dropWhile p = c :: t → p c = false := by
  intro l
  induction l with
  | nil => intro c t h; simp [List.dropWhile] at h
  | cons a l ih =>
    intro c t h
    by_cases hp : p a = true
    · rw [List.dropWhile_cons_of_pos hp] at h
      exact ih h
    · rw [List.dropWhile_cons_of_neg hp] at h
      injection h with h1 h2
      subst h1
      simpa using hp

/-- Joining the pieces of a maxsplit with the separator. -/
def joinSep (sep : Char) : List (List Char) → List Char
  | [] => []
  | [a] => a
  | a :: rest => a ++ sep :: joinSep sep rest

theorem splitOnCharMax_ne_nil (sep : Char) (k : Nat) (l : List Char) :
    splitOnCharMax sep k l ≠ [] := by
  cases k with
  | zero => simp [splitOnCharMax]
  | succ k =>
    simp only [splitOnCharMax]
    cases l.dropWhile fun c => !(c == sep) <;> simp

theorem joinSep_splitOnCharMax (sep : Char) :
    ∀ (k : Nat) (l : List Char), joinSep sep (splitOnCharMax sep k l) = l := by
  intro k
  induction k with
  | zero => intro l; rfl
  | succ k ih =>
    intro l
    simp only [splitOnCharMax]
    cases hd : l.dropWhile fun c => !(c == sep) with
    | nil =>
      have htd := List.takeWhile_append_dropWhile (fun c => !(c == sep)) l
      rw [hd, List.append_nil] at htd
      simpa [joinSep] using htd
    | cons c t =>
      have hc : c = sep := by
        have hf := dropWhile_head_false hd
        simpa using hf
      have htd := List.takeWhile_append_dropWhile (fun c => !(c == sep)) l
      rw [hd, hc] at htd
      have hne := splitOnCharMax_ne_nil sep k t
      cases hs : splitOnCharMax sep k t with
      | nil => exact absurd hs hne
      | cons q qs =>
        show joinSep sep ((l.takeWhile fun c => !(c == sep)) ::
          splitOnCharMax sep k t) = l
        rw [hs]
        have hj : joinSep sep (q :: qs) = t := by rw [← hs]; exact ih t
        calc joinSep sep ((l.takeWhile fun c => !(c == sep)) :: q :: qs)
            = (l.takeWhile fun c => !(c == sep)) ++ sep :: joinSep sep (q :: qs) :=
              rfl
          _ = (l.takeWhile fun c => !(c == sep)) ++ sep :: t := by rw [hj]
          _ = l := htd

theorem splitOnCharMax_length_le (sep : Char) :
    ∀ (k : Nat) (l : List Char), (splitOnCharMax sep k l).length ≤ k + 1 := by
  intro k
  induction k with
  | zero => intro l; simp [splitOnCharMax]
  | succ k ih =>
    intro l
    simp only [splitOnCharMax]
    cases l.dropWhile fun c => !(c == sep) with
    | nil => simp
    | cons c t =>
      have := ih t
      simp only [List.length_cons]
      omega

theorem not_ws_underscore_of_alnumHyphen (c : Char)
    (h : (c.isAlphanum || c == '-') = true) :
    (isPyWs c || c == '_') = false := by
  cases hw : (isPyWs c || c == '_') with
  | false => rfl
  | true =>
    exfalso
    have hcases : c = ' ' ∨ c = '\t' ∨ c = '\n' ∨ c = '\r' ∨
        c = Char.ofNat 11 ∨ c = Char.ofNat 12 ∨ c = '_' := by
      rw [Bool.or_eq_true] at hw
      rcases hw with hws | hu
      · simp only [isPyWs, Bool.or_eq_true, beq_iff_eq] at hws
        tauto
      · simp only [beq_iff_eq] at hu
        tauto
    rcases hcases with rfl | rfl | rfl | rfl | rfl | rfl | rfl <;>
      exact absurd h (by decide)

theorem sanitizeKeepWord_id (l : List Char)
    (h : ∀ c ∈ l, (c.isAlphanum || c == '-') = true) :
    sanitizeKeepWord l = l := by
  refine List.filter_eq_self.mpr fun c hc => ?_
  have h1 := h c hc
  rw [Bool.or_eq_true] at h1
  rcases h1 with h1 | h1 <;> simp [h1]

theorem collapseWsUnderscore_id (l : List Char)
    (h : ∀ c ∈ l, (isPyWs c || c == '_') = false) :
    collapseWsUnderscore l = l := by
  induction l with
  | nil => rw [collapseWsUnderscore]
  | cons c rest ih =>
    rw [collapseWsUnderscore]
    have hc := h c (List.mem_cons_self _ _)
    simp only [hc, Bool.false_eq_true, if_false]
    rw [ih fun d hd => h d (List.mem_cons_of_mem _ hd)]

theorem dropWhile_id_of_head {p : Char → Bool} (l : List Char)
    (h : ∀ c, l.head? = some c → p c = false) : l.dropWhile p = l := by
  cases l with
  | nil => rfl
  | cons c t => exact List.dropWhile_cons_of_neg (by simp [h c rfl])

theorem pyStripChar_id (ch : Char) (l : List Char)
    (hh : ∀ c, l.head? = some c → (c == ch) = false)
    (hl : ∀ c, l.getLast? = some c → (c == ch) = false) :
    pyStripChar ch l = l := by
  unfold pyStripChar
  rw [dropWhile_id_of_head l hh,
    dropWhile_id_of_head l.reverse
      (fun c hc => hl c (by rwa [List.head?_reverse] at hc)),
    List.reverse_reverse]

theorem pyStem_append_md (x : List Char) : pyStem (x ++ ".md".data) = x := by
  have hrev : (x ++ ".md".data).reverse = 'd' :: 'm' :: '.' :: x.reverse := by
    rw [List.reverse_append]
    rfl
  unfold pyStem
  rw [hrev]
  simp [List.dropWhile_cons]

theorem listStarts_append (pre rest : List Char) :
    listStarts (pre ++ rest) pre = true := by
  induction pre with
  | nil => cases rest <;> rfl
  | cons c pre ih => simp [listStarts, ih]

/-- C10: for a dated post whose slug is non-empty, at most 50 characters,
made only of alphanumerics and hyphens, with no outer hyphen, the
resume-set extraction applied to the generated filename's stem recovers
exactly the slug; for an undated post the filename starts with
`undated-` and the extraction does not recover the slug, so resume
skipping never matches undated posts. -/
theorem claim_C10_filename_resume_roundtrip (p : Post)
    (hne : p.slug ≠ "")
    (hlen : p.slug.data.length ≤ 50)
    (hchars : ∀ c ∈ p.slug.data, (c.isAlphanum || c == '-') = true)
    (hhead : p.slug.data.head? ≠ some '-')
    (hlast : p.slug.data.getLast? ≠ some '-') :
    (∀ d, p.date = some d →
      extractSlug (pyStem (generateFilename p)) = p.slug.data) ∧
    (p.date = none →
      listStarts (generateFilename p) "undated-".data = true ∧
      extractSlug (pyStem (generateFilename p)) ≠ p.slug.data) := by
  have hhead' : ∀ c, p.slug.data.head? = some c → (c == '-') = false := by
    intro c hc
    cases hb : (c == '-') with
    | false => rfl
    | true =>
      have hc' : c = '-' := by simpa using hb
      subst hc'
      exact absurd hc hhead
  have hlast' : ∀ c, p.slug.data.getLast? = some c → (c == '-') = false := by
    intro c hc
    cases hb : (c == '-') with
    | false => rfl
    | true =>
      have hc' : c = '-' := by simpa using hb
      subst hc'
      exact absurd hc hlast
  have hid : (pyStripChar '-'
      (collapseWsUnderscore (sanitizeKeepWord p.slug.data))).take 50 =
      p.slug.data := by
    rw [sanitizeKeepWord_id _ hchars,
      collapseWsUnderscore_id _
        (fun c hc => not_ws_underscore_of_alnumHyphen c (hchars c hc)),
      pyStripChar_id '-' _ hhead' hlast',
      List.take_of_length_le hlen]
  constructor
  · intro d hd
    have hgen : generateFilename p =
        (pad4 d.year ++ '-' :: pad2 d.month ++ '-' :: pad2 d.day) ++
          '-' :: p.slug.data ++ ".md".data := by
      simp only [generateFilename, hd, if_neg hne, hid]
    have hassoc :
        ((pad4 d.year ++ '-' :: pad2 d.month ++ '-' :: pad2 d.day) ++
            '-' :: p.slug.data) ++ ".md".data =
          (pad4 d.year ++ '-' :: pad2 d.month ++ '-' :: pad2 d.day) ++
            '-' :: p.slug.data ++ ".md".data := by
      simp [List.append_assoc]
    have hstem : pyStem (generateFilename p) =
        (pad4 d.year ++ '-' :: pad2 d.month ++ '-' :: pad2 d.day) ++
          '-' :: p.slug.data := by
      rw [hgen, ← hassoc, pyStem_append_md]
    have e1 : (pad4 d.year ++ '-' :: pad2 d.month ++ '-' :: pad2 d.day) ++
        '-' :: p.slug.data =
        pad4 d.year ++ '-' ::
          (pad2 d.month ++ '-' :: (pad2 d.day ++ '-' :: p.slug.data)) := by
      simp [List.append_assoc]
    have hsplit : splitOnCharMax '-' 3
        ((pad4 d.year ++ '-' :: pad2 d.month ++ '-' :: pad2 d.day) ++
          '-' :: p.slug.data) =
        [pad4 d.year, pad2 d.month, pad2 d.day, p.slug.data] := by
      rw [e1,
        splitOnCharMax_step '-' 2 _ _ (mem_pad4_ne_hyphen d.year),
        splitOnCharMax_step '-' 1 _ _ (mem_pad2_ne_hyphen d.month),
        splitOnCharMax_step '-' 0 _ _ (mem_pad2_ne_hyphen d.day)]
      rfl
    rw [hstem]
    unfold extractSlug
    rw [hsplit]
  · intro hd
    have hgen : generateFilename p =
        "undated".data ++ '-' :: p.slug.data ++ ".md".data := by
      simp only [generateFilename, hd, if_neg hne, hid]
    constructor
    · rw [hgen]
      have he : "undated".data ++ '-' :: p.slug.data ++ ".md".data =
          "undated-".data ++ (p.slug.data ++ ".md".data) := rfl
      rw [he]
      exact listStarts_append _ _
    · have hassoc : ("undated".data ++ '-' :: p.slug.data) ++ ".md".data =
          "undated".data ++ '-' :: p.slug.data ++ ".md".data := by
        simp [List.append_assoc]
      have hstem : pyStem (generateFilename p) =
          "undated".data ++ '-' :: p.slug.data := by
        rw [hgen, ← hassoc, pyStem_append_md]
      rw [hstem]
      have hsplit := splitOnCharMax_step '-' 2 ("undated".data) p.slug.data
        (by decide)
      unfold extractSlug
      rw [hsplit]
      have hjoin := joinSep_splitOnCharMax '-' 2 p.slug.data
      have hlen2 := splitOnCharMax_length_le '-' 2 p.slug.data
      have hnil := splitOnCharMax_ne_nil '-' 2 p.slug.data
      cases hs : splitOnCharMax '-' 2 p.slug.data with
      | nil => exact absurd hs hnil
      | cons p1 rest =>
        cases rest with
        | nil =>
          intro hEq
          have hL := congrArg List.length hEq
          simp [List.length_append] at hL
          omega
        | cons p2 rest2 =>
          cases rest2 with
          | nil =>
            intro hEq
            have hL := congrArg List.length hEq
            simp [List.length_append] at hL
            omega
          | cons p3 rest3 =>
            cases rest3 with
            | cons p4 r4 =>
              rw [hs] at hlen2
              simp [List.length_cons] at hlen2
            | nil =>
              intro hEq
              rw [hs] at hjoin
              have hj : p1 ++ '-' :: (p2 ++ '-' :: p3) = p.slug.data := hjoin
              have hL := congrArg List.length hj
              have hL2 := congrArg List.length hEq
              simp [List.length_append] at hL hL2
              omega

/-- Witness for C10 at the spec's concrete example: the post dated
2024-03-01 with slug `hello-world` yields a filename whose stem's
slug-extraction returns `hello-world`. -/
theorem claim_C10_filename_resume_roundtrip_witness :
    extractSlug (pyStem (generateFilename
      { url := "https://x.substack.com/p/hello-world",
        title := "Hello, World!", slug := "hello-world",
        date := some ⟨2024, 3, 1, 0, 0, 0⟩ })) = "hello-world".data :=
  (claim_C10_filename_resume_roundtrip
    { url := "https://x.substack.com/p/hello-world",
      title := "Hello, World!", slug := "hello-world",
      date := some ⟨2024, 3, 1, 0, 0, 0⟩ }
    (by decide) (by decide) (by decide) (by decide) (by decide)).1
    ⟨2024, 3, 1, 0, 0, 0⟩ rfl

/-! ## Markdown post-processing (`MarkdownConverter._postprocess_markdown`)

The eight steps are modelled as left-to-right scanners over the character
list, mirroring `re.sub` semantics (leftmost match, scanning resumes
after the matched text):
- `re.sub(r'\n{3,}', '\n\n', md)`: a maximal run of three or more
  newlines becomes two;
- `re.sub(r'(\n#+\s)', r'\n\1', md)`: a newline followed by one or more
  hashes and a whitespace character gets one extra newline,
  unconditionally (the greedy `#+` can only succeed by consuming the
  whole hash run: a shorter run leaves `#` where `\s` must match);
- `re.sub(r'(\n\s*[-*]\s)', r'\n\1', md)`: likewise for list items (the
  greedy `\s*` can only succeed by consuming the whole whitespace run:
  every shorter prefix leaves a whitespace character where `[-*]` must
  match);
- the four `str.replace` calls unescaping `\[ \] \( \)`;
- `re.sub(r'\*\*\s+', '** ', md)` and `re.sub(r'\s+\*\*', ' **', md)`
  (again, the greedy `\s+` can only succeed on the maximal run);
- `'\n'.join(line.rstrip() for line in md.split('\n'))`;
- `md.strip() + '\n'`. -/

/-- Step 1, `re.sub(r'\n{3,}', '\n\n')`. -/
def collapseBlank : List Char → List Char
  | [] => []
  | c :: rest =>
    if c == '\n' && decide (2 ≤ (rest.takeWhile fun d => d == '\n').length) then
      '\n' :: '\n' :: collapseBlank (rest.dropWhile fun d => d == '\n')
    else c :: collapseBlank rest
termination_by l => l.length
decreasing_by
  · have := (List.dropWhile_sublist (fun d => d == '\n') (l := rest)).length_le
    simp only [List.length_cons]
    omega
  · simp only [List.length_cons]
    omega

/-- Match of `#+\s` at the start of the input (the text right after a
newline): the maximal hash run (which must be non-empty), the single
whitespace character after it, and the rest. -/
def hashRun (l : List Char) : Option (List Char × Char × List Char) :=
  match l.dropWhile fun c => c == '#' with
  | d :: t =>
    if !(l.takeWhile fun c => c == '#').isEmpty && isPyWs d then
      some (l.takeWhile fun c => c == '#', d, t)
    else none
  | [] => none

theorem hashRun_length {l : List Char} {hs : List Char} {w : Char}
    {t : List Char} (h : hashRun l = some (hs, w, t)) : t.length < l.length := by
  unfold hashRun at h
  cases hd : l.dropWhile fun c => c == '#' with
  | nil => rw [hd] at h; simp at h
  | cons d t2 =>
    rw [hd] at h
    dsimp only at h
    have hlen := (List.dropWhile_sublist (fun c => c == '#') (l := l)).length_le
    rw [hd] at hlen
    by_cases hc :
        (!(l.takeWhile fun c => c == '#').isEmpty && isPyWs d) = true
    · rw [if_pos hc] at h
      injection h with h1
      have ht : t = t2 := by
        have h2 := congrArg (fun x => x.2.2) h1
        simpa using h2.symm
      subst ht
      simp only [List.length_cons] at hlen
      omega
    · rw [if_neg hc] at h
      simp at h

/-- Step 2, `re.sub(r'(\n#+\s)', r'\n\1')`. -/
def fixHeading : List Char → List Char
  | [] => []
  | c :: rest =>
    if c == '\n' then
      match h : hashRun rest with
      | some (hs, w, t) => '\n' :: '\n' :: (hs ++ w :: fixHeading t)
      | none => '\n' :: fixHeading rest
    else c :: fixHeading rest
termination_by l => l.length
decreasing_by
  · have := hashRun_length h
    simp only [List.length_cons]
    omega
  · simp only [List.length_cons]
    omega
  · simp only [List.length_cons]
    omega

/-- Match of `\s*[-*]\s` at the start of the input: the maximal
whitespace run (possibly empty), the list marker, the single whitespace
character after it, and the rest. -/
def listRun (l : List Char) : Option (List Char × Char × Char × List Char) :=
  match l.dropWhile isPyWs with
  | c :: d :: t =>
    if (c == '-' || c == '*') && isPyWs d then
      some (l.takeWhile isPyWs, c, d, t)
    else none
  | _ => none

theorem listRun_length {l : List Char} {w : List Char} {c d : Char}
    {t : List Char} (h : listRun l = some (w, c, d, t)) :
    t.length < l.length := by
  unfold listRun at h
  cases hd : l.dropWhile isPyWs with
  | nil => rw [hd] at h; simp at h
  | cons x r =>
    rw [hd] at h
    cases r with
    | nil => simp at h
    | cons y t2 =>
      dsimp only at h
      have hlen := (List.dropWhile_sublist isPyWs (l := l)).length_le
      rw [hd] at hlen
      by_cases hc : ((x == '-' || x == '*') && isPyWs y) = true
      · rw [if_pos hc] at h
        injection h with h1
        have ht : t = t2 := by
          have h2 := congrArg (fun q => q.2.2.2) h1
          simpa using h2.symm
        subst ht
        simp only [List.length_cons] at hlen
        omega
      · rw [if_neg hc] at h
        simp at h

/-- Step 3, `re.sub(r'(\n\s*[-*]\s)', r'\n\1')`. -/
def fixList : List Char → List Char
  | [] => []
  | c :: rest =>
    if c == '\n' then
      match h : listRun rest with
      | some (w, m, d, t) => '\n' :: '\n' :: (w ++ m :: d :: fixList t)
      | none => '\n' :: fixList rest
    else c :: fixList rest
termination_by l => l.length
decreasing_by
  · have := listRun_length h
    simp only [List.length_cons]
    omega
  · simp only [List.length_cons]
    omega
  · simp only [List.length_cons]
    omega

/-- One `str.replace` pass replacing the two-character sequence `a b`
with the single character `r` (left-to-right, non-overlapping). -/
def replacePair (a b r : Char) : List Char → List Char
  | [] => []
  | [c] => [c]
  | c :: d :: t =>
    if c == a && d == b then r :: replacePair a b r t
    else c :: replacePair a b r (d :: t)

/-- Step 4, the four unescaping `str.replace` calls, in source order:
`\[`, `\]`, `\(`, `\)`. -/
def unescapeBrackets (l : List Char) : List Char :=
  replacePair '\\' ')' ')'
    (replacePair '\\' '(' '('
      (replacePair '\\' ']' ']'
        (replacePair '\\' '[' '[' l)))

/-- Match of `\*\*\s+` at a position: current character `*`, next
character `*`, and at least one whitespace character after them. -/
def starsMatch (c : Char) (rest : List Char) : Bool :=
  c == '*' &&
    (match rest with
     | d :: e :: _ => d == '*' && isPyWs e
     | _ => false)

/-- Step 5, `re.sub(r'\*\*\s+', '** ')`: the matched run of whitespace
collapses to one space; on no match the scan advances one character. -/
def fixStars1 : List Char → List Char
  | [] => []
  | c :: rest =>
    if starsMatch c rest then
      '*' :: '*' :: ' ' :: fixStars1 ((rest.drop 1).dropWhile isPyWs)
    else c :: fixStars1 rest
termination_by l => l.length
decreasing_by
  · have := (List.dropWhile_sublist isPyWs (l := rest.drop 1)).length_le
    have h2 := List.length_drop 1 rest
    simp only [List.length_cons]
    omega
  · simp only [List.length_cons]
    omega

theorem listStarts_length {l p : List Char} (h : listStarts l p = true) :
    p.length ≤ l.length := by
  induction p generalizing l with
  | nil => simp
  | cons x p ih =>
    cases l with
    | nil => simp [listStarts] at h
    | cons c t =>
      rw [listStarts, Bool.and_eq_true] at h
      have := ih h.2
      simp only [List.length_cons]
      omega

/-- Step 6, `re.sub(r'\s+\*\*', ' **')`: at a whitespace character whose
maximal whitespace run is followed by `**`, the run collapses to one
space and the scan resumes after the two stars. -/
def fixStars2 : List Char → List Char
  | [] => []
  | c :: rest =>
    if isPyWs c then
      if h : listStarts ((c :: rest).dropWhile isPyWs) ('*' :: '*' :: []) then
        ' ' :: '*' :: '*' :: fixStars2 (((c :: rest).dropWhile isPyWs).drop 2)
      else c :: fixStars2 rest
    else c :: fixStars2 rest
termination_by l => l.length
decreasing_by
  · have h1 := (List.dropWhile_sublist isPyWs (l := c :: rest)).length_le
    have h2 := listStarts_length h
    have h3 := List.length_drop 2 ((c :: rest).dropWhile isPyWs)
    simp only [List.length_cons] at h1 ⊢
    omega
  · simp only [List.length_cons]
    omega
  · simp only [List.length_cons]
    omega

/-- Unlimited `md.split('\n')`: since a list of length `n` contains at
most `n` separators, splitting with `maxsplit = n` never hits the cap
and coincides with the unlimited split. -/
def pySplitLines (l : List Char) : List (List Char) :=
  splitOnCharMax '\n' l.length l

/-- Python `str.rstrip()` on one line. -/
def rstripLine (l : List Char) : List Char :=
  (l.reverse.dropWhile isPyWs).reverse

/-- Step 7, `'\n'.join(line.rstrip() for line in md.split('\n'))`. -/
def rstripLines (l : List Char) : List Char :=
  joinSep '\n' ((pySplitLines l).map rstripLine)

/-- Python `str.strip()` on the whole text. -/
def pyStrip (l : List Char) : List Char :=
  ((l.dropWhile isPyWs).reverse.dropWhile isPyWs).reverse

/-- Step 8 wrapped around the whole chain: the model of
`_postprocess_markdown`. -/
def postprocessMarkdown (l : List Char) : List Char :=
  pyStrip (rstripLines (fixStars2 (fixStars1 (unescapeBrackets
    (fixList (fixHeading (collapseBlank l))))))) ++ ['\n']

/-- A character that cannot take part in any post-processing trigger:
not whitespace and none of `#`, `-`, `*`, `\`. -/
def plainC (c : Char) : Bool :=
  !(isPyWs c) && !(c == '#') && !(c == '-') && !(c == '*') && !(c == '\\')

theorem plainC_spec (c : Char) (h : plainC c = true) :
    isPyWs c = false ∧ (c == '#') = false ∧ (c == '-') = false ∧
      (c == '*') = false ∧ (c == '\\') = false ∧ (c == '\n') = false := by
  simp only [plainC, Bool.and_eq_true, Bool.not_eq_true'] at h
  obtain ⟨⟨⟨⟨h1, h2⟩, h3⟩, h4⟩, h5⟩ := h
  refine ⟨h1, h2, h3, h4, h5, ?_⟩
  cases hb : (c == '\n') with
  | false => rfl
  | true =>
    have hc : c = '\n' := by simpa using hb
    subst hc
    simp [isPyWs] at h1

theorem scanner_append {f : List Char → List Char}
    (hstep : ∀ c l, plainC c = true → f (c :: l) = c :: f l)
    (a r : List Char) (ha : ∀ c ∈ a, plainC c = true) :
    f (a ++ r) = a ++ f r := by
  induction a with
  | nil => simp
  | cons c a ih =>
    rw [List.cons_append, hstep c _ (ha c (List.mem_cons_self _ _)),
      ih fun d hd => ha d (List.mem_cons_of_mem _ hd)]
    rfl

theorem scanner_plain_id {f : List Char → List Char}
    (hstep : ∀ c l, plainC c = true → f (c :: l) = c :: f l)
    (hnil : f [] = []) (b : List Char) (hb : ∀ c ∈ b, plainC c = true) :
    f b = b := by
  have h := scanner_append hstep b [] hb
  rwa [List.append_nil, hnil, List.append_nil] at h

theorem collapseBlank_cons_ne {c : Char} (l : List Char)
    (hc : (c == '\n') = false) :
    collapseBlank (c :: l) = c :: collapseBlank l := by
  rw [collapseBlank]
  simp [hc]

theorem collapseBlank_step (c : Char) (l : List Char) (h : plainC c = true) :
    collapseBlank (c :: l) = c :: collapseBlank l :=
  collapseBlank_cons_ne l (plainC_spec c h).2.2.2.2.2

theorem fixHeading_cons_ne {c : Char} (l : List Char)
    (hc : (c == '\n') = false) :
    fixHeading (c :: l) = c :: fixHeading l := by
  rw [fixHeading]
  simp [hc]

theorem fixHeading_step (c : Char) (l : List Char) (h : plainC c = true) :
    fixHeading (c :: l) = c :: fixHeading l :=
  fixHeading_cons_ne l (plainC_spec c h).2.2.2.2.2

theorem fixList_cons_ne {c : Char} (l : List Char)
    (hc : (c == '\n') = false) :
    fixList (c :: l) = c :: fixList l := by
  rw [fixList]
  simp [hc]

theorem fixList_step (c : Char) (l : List Char) (h : plainC c = true) :
    fixList (c :: l) = c :: fixList l :=
  fixList_cons_ne l (plainC_spec c h).2.2.2.2.2

theorem replacePair_cons_ne (x y r : Char) {c : Char} (l : List Char)
    (hc : (c == x) = false) :
    replacePair x y r (c :: l) = c :: replacePair x y r l := by
  cases l with
  | nil => rfl
  | cons d t =>
    rw [replacePair]
    simp [hc]

theorem replacePair_id (x y r : Char) (l : List Char)
    (h : ∀ c ∈ l, (c == x) = false) : replacePair x y r l = l := by
  induction l with
  | nil => rfl
  | cons c t ih =>
    rw [replacePair_cons_ne x y r t (h c (List.mem_cons_self _ _)),
      ih fun d hd => h d (List.mem_cons_of_mem _ hd)]

theorem fixStars1_cons_ne {c : Char} (l : List Char)
    (hc : (c == '*') = false) :
    fixStars1 (c :: l) = c :: fixStars1 l := by
  rw [fixStars1]
  simp [starsMatch, hc]

theorem fixStars1_id (l : List Char) (h : ∀ c ∈ l, (c == '*') = false) :
    fixStars1 l = l := by
  induction l with
  | nil => rw [fixStars1]
  | cons c t ih =>
    rw [fixStars1_cons_ne t (h c (List.mem_cons_self _ _)),
      ih fun d hd => h d (List.mem_cons_of_mem _ hd)]

theorem listStarts_star_head {l t0 : List Char}
    (h : listStarts l ('*' :: t0) = true) :
    ∃ x t, l = x :: t ∧ (x == '*') = true := by
  cases l with
  | nil => simp [listStarts] at h
  | cons x t =>
    rw [listStarts, Bool.and_eq_true] at h
    exact ⟨x, t, rfl, h.1⟩

theorem fixStars2_id (l : List Char) (h : ∀ c ∈ l, (c == '*') = false) :
    fixStars2 l = l := by
  induction l with
  | nil => rw [fixStars2]
  | cons c t ih =>
    have iht := ih fun d hd => h d (List.mem_cons_of_mem _ hd)
    by_cases hws : isPyWs c = true
    · have hst : ¬ (listStarts ((c :: t).dropWhile isPyWs)
          ('*' :: '*' :: []) = true) := by
        intro hcon
        obtain ⟨x, t2, hx, hstar⟩ := listStarts_star_head hcon
        have hmem : x ∈ c :: t := by
          have hsub := List.dropWhile_sublist isPyWs (l := c :: t)
          exact hsub.subset (hx ▸ List.mem_cons_self x t2)
        rw [h x hmem] at hstar
        exact Bool.false_ne_true hstar
      rw [fixStars2]
      rw [if_pos hws, dif_neg hst]
      rw [iht]
    · rw [fixStars2]
      have hws' : isPyWs c = false := by
        cases hb : isPyWs c with
        | false => rfl
        | true => exact absurd hb hws
      rw [if_neg (by rw [hws']; exact Bool.false_ne_true)]
      rw [iht]

theorem collapseBlank_plain_id (b : List Char)
    (hb : ∀ c ∈ b, plainC c = true) : collapseBlank b = b :=
  scanner_plain_id collapseBlank_step (by rw [collapseBlank]) b hb

theorem fixHeading_plain_id (b : List Char)
    (hb : ∀ c ∈ b, plainC c = true) : fixHeading b = b :=
  scanner_plain_id fixHeading_step (by rw [fixHeading]) b hb

theorem fixList_plain_id (b : List Char)
    (hb : ∀ c ∈ b, plainC c = true) : fixList b = b :=
  scanner_plain_id fixList_step (by rw [fixList]) b hb

theorem collapseBlank_cons_nl_small (l : List Char)
    (hsmall : (l.takeWhile fun d => d == '\n').length < 2) :
    collapseBlank ('\n' :: l) = '\n' :: collapseBlank l := by
  rw [collapseBlank]
  have hcond : (('\n' == '\n') &&
      decide (2 ≤ (l.takeWhile fun d => d == '\n').length)) = false := by
    simp
    omega
  rw [if_neg (by rw [hcond]; exact Bool.false_ne_true)]

/-- `collapseBlank` leaves a marker core with at most two newlines
unchanged: the runs are too short to trigger. -/
theorem collapseBlank_core (m : Char) (b : List Char)
    (hm : (m == '\n') = false) (hb : ∀ c ∈ b, plainC c = true) :
    collapseBlank ('\n' :: m :: ' ' :: b) = '\n' :: m :: ' ' :: b ∧
    collapseBlank ('\n' :: '\n' :: m :: ' ' :: b) =
      '\n' :: '\n' :: m :: ' ' :: b := by
  have hsp : ((' ' : Char) == '\n') = false := by decide
  have hone : collapseBlank ('\n' :: m :: ' ' :: b) = '\n' :: m :: ' ' :: b := by
    rw [collapseBlank_cons_nl_small _ (by simp [List.takeWhile_cons, hm]),
      collapseBlank_cons_ne _ hm, collapseBlank_cons_ne _ hsp,
      collapseBlank_plain_id b hb]
  refine ⟨hone, ?_⟩
  rw [collapseBlank_cons_nl_small _ (by simp [List.takeWhile_cons, hm]), hone]

theorem hashRun_eval_pound (b : List Char) (hb : ∀ c ∈ b, plainC c = true) :
    hashRun ('#' :: ' ' :: b) = some (['#'], ' ', b) := by
  unfold hashRun
  simp [List.dropWhile_cons, List.takeWhile_cons, isPyWs]

theorem hashRun_eval_none_head {c : Char} (l : List Char)
    (hc : (c == '#') = false) : hashRun (c :: l) = none := by
  unfold hashRun
  cases hd : (c :: l).dropWhile fun x => x == '#' with
  | nil => rfl
  | cons d t =>
    rw [List.dropWhile_cons_of_neg (by rw [hc]; exact Bool.false_ne_true)] at hd
    injection hd with h1 h2
    subst h1
    subst h2
    simp [List.takeWhile_cons, hc]

theorem fixHeading_cons_nl_some {rest hs : List Char} {w : Char}
    {t : List Char} (h : hashRun rest = some (hs, w, t)) :
    fixHeading ('\n' :: rest) = '\n' :: '\n' :: (hs ++ w :: fixHeading t) := by
  rw [fixHeading]
  simp only [beq_self_eq_true, if_true]
  split
  · rename_i hs2 w2 t2 heq
    rw [h] at heq
    obtain ⟨h1, h2, h3⟩ : hs = hs2 ∧ w = w2 ∧ t = t2 := by simpa using heq
    subst h1
    subst h2
    subst h3
    rfl
  · rename_i heq
    rw [h] at heq
    exact absurd heq (by simp)

theorem fixHeading_cons_nl_none {rest : List Char} (h : hashRun rest = none) :
    fixHeading ('\n' :: rest) = '\n' :: fixHeading rest := by
  rw [fixHeading]
  simp only [beq_self_eq_true, if_true]
  split
  · rename_i hs2 w2 t2 heq
    rw [h] at heq
    exact absurd heq (by simp)
  · rfl

theorem fixList_cons_nl_some {rest w : List Char} {m d : Char}
    {t : List Char} (h : listRun rest = some (w, m, d, t)) :
    fixList ('\n' :: rest) = '\n' :: '\n' :: (w ++ m :: d :: fixList t) := by
  rw [fixList]
  simp only [beq_self_eq_true, if_true]
  split
  · rename_i w2 m2 d2 t2 heq
    rw [h] at heq
    obtain ⟨h1, h2, h3, h4⟩ : w = w2 ∧ m = m2 ∧ d = d2 ∧ t = t2 := by
      simpa using heq
    subst h1
    subst h2
    subst h3
    subst h4
    rfl
  · rename_i heq
    rw [h] at heq
    exact absurd heq (by simp)

theorem fixList_cons_nl_none {rest : List Char} (h : listRun rest = none) :
    fixList ('\n' :: rest) = '\n' :: fixList rest := by
  rw [fixList]
  simp only [beq_self_eq_true, if_true]
  split
  · rename_i w2 m2 d2 t2 heq
    rw [h] at heq
    exact absurd heq (by simp)
  · rfl

/-- `fixHeading` on the heading cores: a newline-preceded `# ` heading
gets one extra newline, whether or not a blank line already precedes. -/
theorem fixHeading_core (b : List Char) (hb : ∀ c ∈ b, plainC c = true) :
    fixHeading ('\n' :: '#' :: ' ' :: b) = '\n' :: '\n' :: '#' :: ' ' :: b ∧
    fixHeading ('\n' :: '\n' :: '#' :: ' ' :: b) =
      '\n' :: '\n' :: '\n' :: '#' :: ' ' :: b := by
  have hone : fixHeading ('\n' :: '#' :: ' ' :: b) =
      '\n' :: '\n' :: '#' :: ' ' :: b := by
    rw [fixHeading_cons_nl_some (hashRun_eval_pound b hb),
      fixHeading_plain_id b hb]
    rfl
  refine ⟨hone, ?_⟩
  rw [fixHeading_cons_nl_none
    (hashRun_eval_none_head (c := '\n') ('#' :: ' ' :: b) (by decide)), hone]

/-- `fixHeading` leaves the list-marker cores unchanged. -/
theorem fixHeading_core_list (b : List Char)
    (hb : ∀ c ∈ b, plainC c = true) :
    fixHeading ('\n' :: '-' :: ' ' :: b) = '\n' :: '-' :: ' ' :: b ∧
    fixHeading ('\n' :: '\n' :: '-' :: ' ' :: b) =
      '\n' :: '\n' :: '-' :: ' ' :: b := by
  have hone : fixHeading ('\n' :: '-' :: ' ' :: b) = '\n' :: '-' :: ' ' :: b := by
    rw [fixHeading_cons_nl_none
      (hashRun_eval_none_head (c := '-') (' ' :: b) (by decide)),
      fixHeading_cons_ne _ (by decide), fixHeading_cons_ne _ (by decide),
      fixHeading_plain_id b hb]
  refine ⟨hone, ?_⟩
  rw [fixHeading_cons_nl_none
    (hashRun_eval_none_head (c := '\n') ('-' :: ' ' :: b) (by decide)), hone]

theorem listRun_eval_dash (b : List Char) :
    listRun ('-' :: ' ' :: b) = some ([], '-', ' ', b) := by
  unfold listRun
  simp [List.dropWhile_cons, List.takeWhile_cons, isPyWs]

theorem listRun_eval_nl_dash (b : List Char) :
    listRun ('\n' :: '-' :: ' ' :: b) = some (['\n'], '-', ' ', b) := by
  unfold listRun
  simp [List.dropWhile_cons, List.takeWhile_cons, isPyWs]

/-- `listRun` sees `#` as the first non-whitespace character on the
heading cores and fails. -/
theorem listRun_eval_none_pound (b : List Char) :
    listRun ('#' :: ' ' :: b) = none ∧
    listRun ('\n' :: '#' :: ' ' :: b) = none ∧
    listRun ('\n' :: '\n' :: '#' :: ' ' :: b) = none := by
  refine ⟨?_, ?_, ?_⟩ <;>
    · unfold listRun
      simp [List.dropWhile_cons, isPyWs]

/-- `fixList` on the list cores: a newline-preceded `- ` item gets one
extra newline, whether or not a blank line already precedes. -/
theorem fixList_core (b : List Char) (hb : ∀ c ∈ b, plainC c = true) :
    fixList ('\n' :: '-' :: ' ' :: b) = '\n' :: '\n' :: '-' :: ' ' :: b ∧
    fixList ('\n' :: '\n' :: '-' :: ' ' :: b) =
      '\n' :: '\n' :: '\n' :: '-' :: ' ' :: b := by
  constructor
  · rw [fixList_cons_nl_some (listRun_eval_dash b), fixList_plain_id b hb]
    rfl
  · rw [fixList_cons_nl_some (listRun_eval_nl_dash b), fixList_plain_id b hb]
    rfl

/-- `fixList` leaves the (already heading-expanded) heading cores
unchanged. -/
theorem fixList_core_pound (b : List Char)
    (hb : ∀ c ∈ b, plainC c = true) :
    fixList ('\n' :: '\n' :: '#' :: ' ' :: b) =
      '\n' :: '\n' :: '#' :: ' ' :: b ∧
    fixList ('\n' :: '\n' :: '\n' :: '#' :: ' ' :: b) =
      '\n' :: '\n' :: '\n' :: '#' :: ' ' :: b := by
  obtain ⟨h1, h2, h3⟩ := listRun_eval_none_pound b
  have hbase : fixList ('\n' :: '#' :: ' ' :: b) = '\n' :: '#' :: ' ' :: b := by
    rw [fixList_cons_nl_none h1, fixList_cons_ne _ (by decide),
      fixList_cons_ne _ (by decide), fixList_plain_id b hb]
  have htwo : fixList ('\n' :: '\n' :: '#' :: ' ' :: b) =
      '\n' :: '\n' :: '#' :: ' ' :: b := by
    rw [fixList_cons_nl_none h2, hbase]
  refine ⟨htwo, ?_⟩
  rw [fixList_cons_nl_none h3, htwo]

theorem dropWhile_all {p : Char → Bool} :
    ∀ {l : List Char}, (∀ c ∈ l, p c = true) → l.dropWhile p = [] := by
  intro l
  induction l with
  | nil => intro h; rfl
  | cons c t ih =>
    intro h
    rw [List.dropWhile_cons_of_pos (h c (List.mem_cons_self _ _))]
    exact ih fun d hd => h d (List.mem_cons_of_mem _ hd)

theorem splitOnCharMax_no_sep (sep : Char) (k : Nat) (l : List Char)
    (h : ∀ c ∈ l, (c == sep) = false) : splitOnCharMax sep k l = [l] := by
  cases k with
  | zero => rfl
  | succ k =>
    have hdrop : (l.dropWhile fun c => !(c == sep)) = [] :=
      dropWhile_all fun c hc => by rw [h c hc]; rfl
    have htake : (l.takeWhile fun c => !(c == sep)) = l := by
      have htd := List.takeWhile_append_dropWhile (fun c => !(c == sep)) l
      rw [hdrop, List.append_nil] at htd
      exact htd
    simp only [splitOnCharMax, hdrop, htake]

theorem split_eval2 (a core : List Char)
    (ha : ∀ c ∈ a, (c == '\n') = false)
    (hcore : ∀ c ∈ core, (c == '\n') = false) :
    ∀ k, splitOnCharMax '\n' (k + 2) (a ++ '\n' :: '\n' :: core) =
      [a, [], core] := by
  intro k
  rw [splitOnCharMax_step '\n' (k + 1) a _ ha,
    show ('\n' :: core = ([] : List Char) ++ '\n' :: core) from rfl,
    splitOnCharMax_step '\n' k [] core (by intro c hc; simp at hc),
    splitOnCharMax_no_sep '\n' k core hcore]

theorem split_eval3 (a core : List Char)
    (ha : ∀ c ∈ a, (c == '\n') = false)
    (hcore : ∀ c ∈ core, (c == '\n') = false) :
    ∀ k, splitOnCharMax '\n' (k + 3) (a ++ '\n' :: '\n' :: '\n' :: core) =
      [a, [], [], core] := by
  intro k
  rw [splitOnCharMax_step '\n' (k + 2) a _ ha,
    show ('\n' :: '\n' :: core = ([] : List Char) ++ '\n' :: '\n' :: core)
      from rfl,
    splitOnCharMax_step '\n' (k + 1) [] _ (by intro c hc; simp at hc),
    show ('\n' :: core = ([] : List Char) ++ '\n' :: core) from rfl,
    splitOnCharMax_step '\n' k [] core (by intro c hc; simp at hc),
    splitOnCharMax_no_sep '\n' k core hcore]

theorem pySplitLines_eval2 (a core : List Char)
    (ha : ∀ c ∈ a, (c == '\n') = false)
    (hcore : ∀ c ∈ core, (c == '\n') = false) :
    pySplitLines (a ++ '\n' :: '\n' :: core) = [a, [], core] := by
  unfold pySplitLines
  rw [show (a ++ '\n' :: '\n' :: core).length =
    (a.length + core.length) + 2 from by simp; omega]
  exact split_eval2 a core ha hcore _

theorem pySplitLines_eval3 (a core : List Char)
    (ha : ∀ c ∈ a, (c == '\n') = false)
    (hcore : ∀ c ∈ core, (c == '\n') = false) :
    pySplitLines (a ++ '\n' :: '\n' :: '\n' :: core) = [a, [], [], core] := by
  unfold pySplitLines
  rw [show (a ++ '\n' :: '\n' :: '\n' :: core).length =
    (a.length + core.length) + 3 from by simp; omega]
  exact split_eval3 a core ha hcore _

theorem rstripLine_last_plain (l : List Char)
    (hl : ∀ c, l.getLast? = some c → isPyWs c = false) : rstripLine l = l := by
  unfold rstripLine
  rw [dropWhile_id_of_head l.reverse
    (fun c hc => hl c (by rwa [List.head?_reverse] at hc)),
    List.reverse_reverse]

theorem getLast?_plain_of_mem (l : List Char)
    (hp : ∀ c ∈ l, plainC c = true) :
    ∀ c, l.getLast? = some c → isPyWs c = false := fun c hc =>
  (plainC_spec c (hp c (List.mem_of_getLast?_eq_some hc))).1

theorem getLast?_append_plain (x b : List Char) (hbne : b ≠ [])
    (hb : ∀ c ∈ b, plainC c = true) :
    ∀ c, (x ++ b).getLast? = some c → isPyWs c = false := by
  intro c hc
  rw [List.getLast?_append] at hc
  cases hb' : b.getLast? with
  | none => exact absurd (List.getLast?_eq_none_iff.mp hb') hbne
  | some x0 =>
    rw [hb'] at hc
    have hcx : x0 = c := by simpa using hc
    subst hcx
    exact (plainC_spec x0 (hb x0 (List.mem_of_getLast?_eq_some hb'))).1

theorem head?_append_plain (a r : List Char) (hane : a ≠ [])
    (ha : ∀ c ∈ a, plainC c = true) :
    ∀ c, (a ++ r).head? = some c → isPyWs c = false := by
  intro c hc
  rw [List.head?_append] at hc
  cases a with
  | nil => exact absurd rfl hane
  | cons x t =>
    have hcx : x = c := by simpa using hc
    subst hcx
    exact (plainC_spec x (ha x (List.mem_cons_self _ _))).1

theorem pyStrip_id (l : List Char)
    (hh : ∀ c, l.head? = some c → isPyWs c = false)
    (hl : ∀ c, l.getLast? = some c → isPyWs c = false) : pyStrip l = l := by
  unfold pyStrip
  rw [dropWhile_id_of_head l hh,
    dropWhile_id_of_head l.reverse
      (fun c hc => hl c (by rwa [List.head?_reverse] at hc)),
    List.reverse_reverse]

theorem no_char_shape (x : Char) (a mids b : List Char)
    (ha : ∀ c ∈ a, plainC c = true) (hb : ∀ c ∈ b, plainC c = true)
    (hx : ∀ c ∈ mids, (c == x) = false)
    (hplain : ∀ c, plainC c = true → (c == x) = false) :
    ∀ c ∈ a ++ (mids ++ b), (c == x) = false := by
  intro c hc
  rcases List.mem_append.mp hc with h | h
  · exact hplain c (ha c h)
  · rcases List.mem_append.mp h with h2 | h2
    · exact hx c h2
    · exact hplain c (hb c h2)

theorem postTail2 (a b : List Char) (m : Char)
    (ha : ∀ c ∈ a, plainC c = true) (hb : ∀ c ∈ b, plainC c = true)
    (hane : a ≠ []) (hbne : b ≠ [])
    (hm1 : (m == '\\') = false) (hm2 : (m == '*') = false)
    (hm3 : (m == '\n') = false) :
    pyStrip (rstripLines (fixStars2 (fixStars1 (unescapeBrackets
      (a ++ '\n' :: '\n' :: m :: ' ' :: b))))) =
      a ++ '\n' :: '\n' :: m :: ' ' :: b := by
  have hplainbs : ∀ c, plainC c = true → (c == '\\') = false :=
    fun c h => (plainC_spec c h).2.2.2.2.1
  have hplainst : ∀ c, plainC c = true → (c == '*') = false :=
    fun c h => (plainC_spec c h).2.2.2.1
  have hplainnl : ∀ c, plainC c = true → (c == '\n') = false :=
    fun c h => (plainC_spec c h).2.2.2.2.2
  have hmidbs : ∀ c ∈ ['\n', '\n', m, ' '], (c == '\\') = false := by
    intro c hc
    simp only [List.mem_cons, List.not_mem_nil, or_false] at hc
    rcases hc with rfl | rfl | rfl | rfl
    · decide
    · decide
    · exact hm1
    · decide
  have hmidst : ∀ c ∈ ['\n', '\n', m, ' '], (c == '*') = false := by
    intro c hc
    simp only [List.mem_cons, List.not_mem_nil, or_false] at hc
    rcases hc with rfl | rfl | rfl | rfl
    · decide
    · decide
    · exact hm2
    · decide
  have hbs : ∀ c ∈ a ++ '\n' :: '\n' :: m :: ' ' :: b, (c == '\\') = false :=
    no_char_shape '\\' a ['\n', '\n', m, ' '] b ha hb hmidbs hplainbs
  have hst : ∀ c ∈ a ++ '\n' :: '\n' :: m :: ' ' :: b, (c == '*') = false :=
    no_char_shape '*' a ['\n', '\n', m, ' '] b ha hb hmidst hplainst
  have hue : unescapeBrackets (a ++ '\n' :: '\n' :: m :: ' ' :: b) =
      a ++ '\n' :: '\n' :: m :: ' ' :: b := by
    unfold unescapeBrackets
    rw [replacePair_id '\\' '[' '[' _ hbs, replacePair_id '\\' ']' ']' _ hbs,
      replacePair_id '\\' '(' '(' _ hbs, replacePair_id '\\' ')' ')' _ hbs]
  have hnla : ∀ c ∈ a, (c == '\n') = false := fun c hc => hplainnl c (ha c hc)
  have hcore : ∀ c ∈ m :: ' ' :: b, (c == '\n') = false := by
    intro c hc
    rcases List.mem_cons.mp hc with rfl | hc
    · exact hm3
    rcases List.mem_cons.mp hc with rfl | hc
    · decide
    · exact hplainnl c (hb c hc)
  have hcl : ∀ c, (m :: ' ' :: b).getLast? = some c → isPyWs c = false :=
    fun c hc => getLast?_append_plain [m, ' '] b hbne hb c hc
  have hrs : rstripLines (a ++ '\n' :: '\n' :: m :: ' ' :: b) =
      a ++ '\n' :: '\n' :: m :: ' ' :: b := by
    unfold rstripLines
    rw [pySplitLines_eval2 a (m :: ' ' :: b) hnla hcore]
    simp only [List.map_cons, List.map_nil]
    rw [rstripLine_last_plain a (getLast?_plain_of_mem a ha),
      rstripLine_last_plain (m :: ' ' :: b) hcl,
      show rstripLine ([] : List Char) = [] from rfl]
    rfl
  have hh := head?_append_plain a ('\n' :: '\n' :: m :: ' ' :: b) hane ha
  have hlast : ∀ c, (a ++ '\n' :: '\n' :: m :: ' ' :: b).getLast? = some c →
      isPyWs c = false := by
    intro c hc
    refine getLast?_append_plain (a ++ ['\n', '\n', m, ' ']) b hbne hb c ?_
    rw [List.append_assoc]
    exact hc
  rw [hue, fixStars1_id _ hst, fixStars2_id _ hst, hrs]
  exact pyStrip_id _ hh hlast

theorem postTail3 (a b : List Char) (m : Char)
    (ha : ∀ c ∈ a, plainC c = true) (hb : ∀ c ∈ b, plainC c = true)
    (hane : a ≠ []) (hbne : b ≠ [])
    (hm1 : (m == '\\') = false) (hm2 : (m == '*') = false)
    (hm3 : (m == '\n') = false) :
    pyStrip (rstripLines (fixStars2 (fixStars1 (unescapeBrackets
      (a ++ '\n' :: '\n' :: '\n' :: m :: ' ' :: b))))) =
      a ++ '\n' :: '\n' :: '\n' :: m :: ' ' :: b := by
  have hplainbs : ∀ c, plainC c = true → (c == '\\') = false :=
    fun c h => (plainC_spec c h).2.2.2.2.1
  have hplainst : ∀ c, plainC c = true → (c == '*') = false :=
    fun c h => (plainC_spec c h).2.2.2.1
  have hplainnl : ∀ c, plainC c = true → (c == '\n') = false :=
    fun c h => (plainC_spec c h).2.2.2.2.2
  have hmidbs : ∀ c ∈ ['\n', '\n', '\n', m, ' '], (c == '\\') = false := by
    intro c hc
    simp only [List.mem_cons, List.not_mem_nil, or_false] at hc
    rcases hc with rfl | rfl | rfl | rfl | rfl
    · decide
    · decide
    · decide
    · exact hm1
    · decide
  have hmidst : ∀ c ∈ ['\n', '\n', '\n', m, ' '], (c == '*') = false := by
    intro c hc
    simp only [List.mem_cons, List.not_mem_nil, or_false] at hc
    rcases hc with rfl | rfl | rfl | rfl | rfl
    · decide
    · decide
    · decide
    · exact hm2
    · decide
  have hbs : ∀ c ∈ a ++ '\n' :: '\n' :: '\n' :: m :: ' ' :: b,
      (c == '\\') = false :=
    no_char_shape '\\' a ['\n', '\n', '\n', m, ' '] b ha hb hmidbs hplainbs
  have hst : ∀ c ∈ a ++ '\n' :: '\n' :: '\n' :: m :: ' ' :: b,
      (c == '*') = false :=
    no_char_shape '*' a ['\n', '\n', '\n', m, ' '] b ha hb hmidst hplainst
  have hue : unescapeBrackets (a ++ '\n' :: '\n' :: '\n' :: m :: ' ' :: b) =
      a ++ '\n' :: '\n' :: '\n' :: m :: ' ' :: b := by
    unfold unescapeBrackets
    rw [replacePair_id '\\' '[' '[' _ hbs, replacePair_id '\\' ']' ']' _ hbs,
      replacePair_id '\\' '(' '(' _ hbs, replacePair_id '\\' ')' ')' _ hbs]
  have hnla : ∀ c ∈ a, (c == '\n') = false := fun c hc => hplainnl c (ha c hc)
  have hcore : ∀ c ∈ m :: ' ' :: b, (c == '\n') = false := by
    intro c hc
    rcases List.mem_cons.mp hc with rfl | hc
    · exact hm3
    rcases List.mem_cons.mp hc with rfl | hc
    · decide
    · exact hplainnl c (hb c hc)
  have hcl : ∀ c, (m :: ' ' :: b).getLast? = some c → isPyWs c = false :=
    fun c hc => getLast?_append_plain [m, ' '] b hbne hb c hc
  have hrs : rstripLines (a ++ '\n' :: '\n' :: '\n' :: m :: ' ' :: b) =
      a ++ '\n' :: '\n' :: '\n' :: m :: ' ' :: b := by
    unfold rstripLines
    rw [pySplitLines_eval3 a (m :: ' ' :: b) hnla hcore]
    simp only [List.map_cons, List.map_nil]
    rw [rstripLine_last_plain a (getLast?_plain_of_mem a ha),
      rstripLine_last_plain (m :: ' ' :: b) hcl,
      show rstripLine ([] : List Char) = [] from rfl]
    rfl
  have hh := head?_append_plain a ('\n' :: '\n' :: '\n' :: m :: ' ' :: b) hane ha
  have hlast : ∀ c,
      (a ++ '\n' :: '\n' :: '\n' :: m :: ' ' :: b).getLast? = some c →
      isPyWs c = false := by
    intro c hc
    refine getLast?_append_plain (a ++ ['\n', '\n', '\n', m, ' ']) b hbne hb c ?_
    rw [List.append_assoc]
    exact hc
  rw [hue, fixStars1_id _ hst, fixStars2_id _ hst, hrs]
  exact pyStrip_id _ hh hlast

theorem postprocess_heading_one (a b : List Char)
    (ha : ∀ c ∈ a, plainC c = true) (hb : ∀ c ∈ b, plainC c = true)
    (hane : a ≠ []) (hbne : b ≠ []) :
    postprocessMarkdown (a ++ '\n' :: '#' :: ' ' :: b) =
      a ++ '\n' :: '\n' :: '#' :: ' ' :: b ++ ['\n'] := by
  unfold postprocessMarkdown
  rw [scanner_append collapseBlank_step a _ ha,
    (collapseBlank_core '#' b (by decide) hb).1,
    scanner_append fixHeading_step a _ ha, (fixHeading_core b hb).1,
    scanner_append fixList_step a _ ha, (fixList_core_pound b hb).1,
    postTail2 a b '#' ha hb hane hbne (by decide) (by decide) (by decide)]

theorem postprocess_heading_two (a b : List Char)
    (ha : ∀ c ∈ a, plainC c = true) (hb : ∀ c ∈ b, plainC c = true)
    (hane : a ≠ []) (hbne : b ≠ []) :
    postprocessMarkdown (a ++ '\n' :: '\n' :: '#' :: ' ' :: b) =
      a ++ '\n' :: '\n' :: '\n' :: '#' :: ' ' :: b ++ ['\n'] := by
  unfold postprocessMarkdown
  rw [scanner_append collapseBlank_step a _ ha,
    (collapseBlank_core '#' b (by decide) hb).2,
    scanner_append fixHeading_step a _ ha, (fixHeading_core b hb).2,
    scanner_append fixList_step a _ ha, (fixList_core_pound b hb).2,
    postTail3 a b '#' ha hb hane hbne (by decide) (by decide) (by decide)]

theorem postprocess_list_one (a b : List Char)
    (ha : ∀ c ∈ a, plainC c = true) (hb : ∀ c ∈ b, plainC c = true)
    (hane : a ≠ []) (hbne : b ≠ []) :
    postprocessMarkdown (a ++ '\n' :: '-' :: ' ' :: b) =
      a ++ '\n' :: '\n' :: '-' :: ' ' :: b ++ ['\n'] := by
  unfold postprocessMarkdown
  rw [scanner_append collapseBlank_step a _ ha,
    (collapseBlank_core '-' b (by decide) hb).1,
    scanner_append fixHeading_step a _ ha, (fixHeading_core_list b hb).1,
    scanner_append fixList_step a _ ha, (fixList_core b hb).1,
    postTail2 a b '-' ha hb hane hbne (by decide) (by decide) (by decide)]

theorem postprocess_list_two (a b : List Char)
    (ha : ∀ c ∈ a, plainC c = true) (hb : ∀ c ∈ b, plainC c = true)
    (hane : a ≠ []) (hbne : b ≠ []) :
    postprocessMarkdown (a ++ '\n' :: '\n' :: '-' :: ' ' :: b) =
      a ++ '\n' :: '\n' :: '\n' :: '-' :: ' ' :: b ++ ['\n'] := by
  unfold postprocessMarkdown
  rw [scanner_append collapseBlank_step a _ ha,
    (collapseBlank_core '-' b (by decide) hb).2,
    scanner_append fixHeading_step a _ ha, (fixHeading_core_list b hb).2,
    scanner_append fixList_step a _ ha, (fixList_core b hb).2,
    postTail3 a b '-' ha hb hane hbne (by decide) (by decide) (by decide)]

/-- C8 (counterexample): on `"a\n\n# h"`, where the heading is already
preceded by exactly one blank line, the post-processing step emits
`"a\n\n\n# h\n"` — the heading ends up preceded by two blank lines, not
one: the insertion is unconditional, not only-when-missing. -/
theorem claim_C8_counterexample :
    postprocessMarkdown ("a\n\n# h".data) = "a\n\n\n# h\n".data ∧
    postprocessMarkdown ("a\n\n# h".data) ≠ "a\n\n# h\n".data := by
  have h : postprocessMarkdown ("a\n\n# h".data) = "a\n\n\n# h\n".data :=
    postprocess_heading_two ['a'] ['h'] (by decide) (by decide)
      (by decide) (by decide)
  refine ⟨h, ?_⟩
  rw [h]
  decide

/-- C8 (amended): the line-oriented post-processing inserts a blank line
before every newline-preceded heading line and list-item line
unconditionally rather than only when one is missing: for surrounding
text of trigger-free characters, a heading or list item directly
following a text line gains one blank line, and a heading or list item
already preceded by exactly one blank line ends up with exactly two
blank lines before it in the output. -/
theorem claim_C8_blank_line_insertion (a b : List Char)
    (ha : ∀ c ∈ a, plainC c = true) (hb : ∀ c ∈ b, plainC c = true)
    (hane : a ≠ []) (hbne : b ≠ []) :
    (postprocessMarkdown (a ++ '\n' :: '#' :: ' ' :: b) =
      a ++ '\n' :: '\n' :: '#' :: ' ' :: b ++ ['\n']) ∧
    (postprocessMarkdown (a ++ '\n' :: '\n' :: '#' :: ' ' :: b) =
      a ++ '\n' :: '\n' :: '\n' :: '#' :: ' ' :: b ++ ['\n']) ∧
    (postprocessMarkdown (a ++ '\n' :: '-' :: ' ' :: b) =
      a ++ '\n' :: '\n' :: '-' :: ' ' :: b ++ ['\n']) ∧
    (postprocessMarkdown (a ++ '\n' :: '\n' :: '-' :: ' ' :: b) =
      a ++ '\n' :: '\n' :: '\n' :: '-' :: ' ' :: b ++ ['\n']) :=
  ⟨postprocess_heading_one a b ha hb hane hbne,
   postprocess_heading_two a b ha hb hane hbne,
   postprocess_list_one a b ha hb hane hbne,
   postprocess_list_two a b ha hb hane hbne⟩

/-- Witness for C8 (amended): on `"a\n# h"` one blank line is inserted
before the heading. -/
theorem claim_C8_blank_line_insertion_witness :
    postprocessMarkdown ("a\n# h".data) = "a\n\n# h\n".data :=
  (claim_C8_blank_line_insertion ['a'] ['h'] (by decide) (by decide)
    (by decide) (by decide)).1
